import Mathlib

/-!
# Verification of the minimart multi-object tracking core

Shallow embedding, over exact rational arithmetic, of the tracking code in
`src/bytetrack_tracker.py` (`STrack`, `ByteTracker`), `src/ocsort_tracker.py`
(`OCTrack`, `OCSort` with its `filterpy` Kalman filter) and
`src/services/tracking.py` (`TrackingService`).

Modelling conventions:
* Python floats are modelled as exact rationals (`ℚ`).  Where the source
  compares quantities involving a square root (`math.sqrt`), the comparison is
  decided exactly by an algebraically equivalent rational test, documented at
  the definition.
* Wall-clock time (`time.time()`) is an explicit input: each frame passes the
  value that the calls to `time.time()` return during that frame.
* Image crops and their cv2 colour histograms are external to the tracking
  logic; a detection carries an optional abstract appearance descriptor, and
  the Bhattacharyya histogram distance computed by `cv2.compareHist` is an
  oracle parameter `bhat`.
-/

namespace Minimart

/-! ## Exact rational numbers that evaluate by kernel reduction

Python floats are modelled as exact rationals.  Mathlib's `ℚ` normalizes
through `Nat.gcd`, whose well-founded recursion does not reduce during
definitional unfolding, so concrete tracker runs could not be evaluated with
`decide`/`rfl`.  `Q` below is a plain numerator/denominator pair normalized by
a fuel-driven (hence structurally recursive) Euclidean gcd; every operation
mirrors exact rational arithmetic and reduces in the kernel. -/

/-- Euclid's algorithm with explicit fuel.  Each step strictly decreases the
first argument (`n % m < m`), so fuel `m + 1` always suffices and the result
is exactly `Nat.gcd m n`. -/
def gcdF : ℕ → ℕ → ℕ → ℕ
  | 0, _, n => n
  | _ + 1, 0, n => n
  | f + 1, m + 1, n => gcdF f (n % (m + 1)) (m + 1)

/-- `Nat.gcd` via `gcdF` with sufficient fuel. -/
def qgcd (m n : ℕ) : ℕ := gcdF (m + 1) m n

/-- An exact rational: numerator and positive denominator, kept coprime by
construction through `Q.norm`. -/
structure Q where
  num : ℤ
  den : ℤ
deriving DecidableEq, Repr

instance : Inhabited Q := ⟨⟨0, 1⟩⟩

/-- Normalize `n / d`: zero denominator maps to `0` (never reached by the
modelled code, which guards every division), the sign moves to the numerator,
and both components are divided by their gcd (exact integer divisions). -/
def Q.norm (n d : ℤ) : Q :=
  if d = 0 then ⟨0, 1⟩
  else
    let n' := if d < 0 then -n else n
    let d' := if d < 0 then -d else d
    let g : ℤ := (qgcd n'.natAbs d'.toNat : ℤ)
    ⟨n' / g, d' / g⟩

def Q.add (a b : Q) : Q := Q.norm (a.num * b.den + b.num * a.den) (a.den * b.den)
def Q.sub (a b : Q) : Q := Q.norm (a.num * b.den - b.num * a.den) (a.den * b.den)
def Q.mul (a b : Q) : Q := Q.norm (a.num * b.num) (a.den * b.den)
def Q.div (a b : Q) : Q := Q.norm (a.num * b.den) (a.den * b.num)
def Q.neg (a : Q) : Q := ⟨-a.num, a.den⟩

instance : Add Q := ⟨Q.add⟩
instance : Sub Q := ⟨Q.sub⟩
instance : Mul Q := ⟨Q.mul⟩
instance : Div Q := ⟨Q.div⟩
instance : Neg Q := ⟨Q.neg⟩
instance (n : ℕ) : OfNat Q n := ⟨⟨(n : ℤ), 1⟩⟩

/-- Cross-multiplied strict order (denominators are positive for every value
built through `Q.norm` and the literals). -/
instance : LT Q := ⟨fun a b => a.num * b.den < b.num * a.den⟩

instance : LE Q := ⟨fun a b => a.num * b.den ≤ b.num * a.den⟩

instance (a b : Q) : Decidable (a < b) :=
  inferInstanceAs (Decidable (a.num * b.den < b.num * a.den))

instance (a b : Q) : Decidable (a ≤ b) :=
  inferInstanceAs (Decidable (a.num * b.den ≤ b.num * a.den))

/-- Python `max` on two floats. -/
def qmax (a b : Q) : Q := if a ≤ b then b else a

/-- Python `min` on two floats. -/
def qmin (a b : Q) : Q := if a ≤ b then a else b

/-- A box in top-left / width-height form (the `tlwh` arrays of both trackers). -/
structure Tlwh where
  x : Q
  y : Q
  w : Q
  h : Q
deriving DecidableEq, Repr

/-- A box in top-left / bottom-right form. -/
structure Tlbr where
  x1 : Q
  y1 : Q
  x2 : Q
  y2 : Q
deriving DecidableEq, Repr

/-- `STrack.tlbr` / `OCTrack.tlbr`: `ret[2:] += ret[:2]`. -/
def Tlwh.tlbr (b : Tlwh) : Tlbr :=
  ⟨b.x, b.y, b.x + b.w, b.y + b.h⟩

/-- `STrack.center` / `OCTrack.center`: midpoint of the `tlbr` corners. -/
def Tlwh.center (b : Tlwh) : Q × Q :=
  let t := b.tlbr
  ((t.x1 + t.x2) / 2, (t.y1 + t.y2) / 2)

/-- `ByteTracker._iou` and `OCSort._iou` (identical code): intersection over
union of two `tlbr` boxes, `0` when the boxes do not overlap
(`x2 <= x1 or y2 <= y1`) or when `union <= 0`. -/
def iou (box1 box2 : Tlbr) : Q :=
  let x1 := qmax box1.x1 box2.x1
  let y1 := qmax box1.y1 box2.y1
  let x2 := qmin box1.x2 box2.x2
  let y2 := qmin box1.y2 box2.y2
  if x2 ≤ x1 ∨ y2 ≤ y1 then 0
  else
    let intersection := (x2 - x1) * (y2 - y1)
    let area1 := (box1.x2 - box1.x1) * (box1.y2 - box1.y1)
    let area2 := (box2.x2 - box2.x1) * (box2.y2 - box2.y1)
    let union := area1 + area2 - intersection
    if union ≤ 0 then 0 else intersection / union

/-! ## No-double-assignment predicate

A matching, as returned by any of the three association routines, is a list of
`(track index, detection index)` pairs.  `NoDouble` says no track index and no
detection index occurs in two pairs. -/

def NoDouble (l : List (ℕ × ℕ)) : Prop :=
  l.Pairwise fun p q => p.1 ≠ q.1 ∧ p.2 ≠ q.2

theorem noDouble_sublist {l l' : List (ℕ × ℕ)} (h : List.Sublist l' l) (hl : NoDouble l) :
    NoDouble l' :=
  List.Pairwise.sublist h hl

/-! ## `ByteTracker._associate`: greedy maximum-IoU matching

The Python builds an IoU matrix, then repeatedly scans all still-unmatched
(track, detection) index pairs for the strictly largest IoU (starting the scan
maximum at `0`, so only strictly positive entries are ever selected), matches
that pair if its IoU clears the threshold and removes both indices, and stops
otherwise.  `m` is the IoU matrix as a function of (track index, detection
index). -/

/-- The double `for` scan of `ByteTracker._associate`: running maximum starts
at `0` with no indices (`-1` in the Python, `none` here); an entry replaces the
maximum only when strictly greater. -/
def greedyFindMax (m : ℕ → ℕ → Q) (uT uD : List ℕ) : Q × Option (ℕ × ℕ) :=
  uT.foldl (fun acc t =>
    uD.foldl (fun acc d =>
      if m t d > acc.1 then (m t d, some (t, d)) else acc) acc) (0, none)

/-- The `while` loop of `ByteTracker._associate`.  The fuel is the initial
number of unmatched tracks: every iteration that continues removes one track,
so the loop ends before the fuel does.  When the scan finds no strictly
positive entry the Python keeps `(-1, -1)` as indices: with a positive
threshold it breaks (modelled here); with a non-positive threshold it would
crash on `list.remove(-1)` (the tracker only calls this with thresholds
`0.8` and `0.5`). -/
def greedyLoop (m : ℕ → ℕ → Q) (thresh : Q) :
    ℕ → List (ℕ × ℕ) → List ℕ → List ℕ →
    List (ℕ × ℕ) × List ℕ × List ℕ
  | 0, matched, uT, uD => (matched, uD, uT)
  | fuel + 1, matched, uT, uD =>
    if uT.isEmpty ∨ uD.isEmpty then (matched, uD, uT)
    else
      match greedyFindMax m uT uD with
      | (maxIou, some td) =>
        if maxIou ≥ thresh then
          greedyLoop m thresh fuel (matched ++ [td]) (uT.erase td.1) (uD.erase td.2)
        else (matched, uD, uT)
      | (_, none) => (matched, uD, uT)

/-- `ByteTracker._associate`: returns
`(matched pairs, unmatched detection indices, unmatched track indices)`. -/
def byteAssociate (m : ℕ → ℕ → Q) (nT nD : ℕ) (thresh : Q) :
    List (ℕ × ℕ) × List ℕ × List ℕ :=
  if nT = 0 ∨ nD = 0 then ([], List.range nD, List.range nT)
  else greedyLoop m thresh nT [] (List.range nT) (List.range nD)

theorem greedyFindMax_inner_mem (m : ℕ → ℕ → Q) (t0 : ℕ) (uD : List ℕ)
    (acc : Q × Option (ℕ × ℕ)) (p : ℕ × ℕ)
    (h : (uD.foldl (fun acc d =>
      if m t0 d > acc.1 then (m t0 d, some (t0, d)) else acc) acc).2 = some p) :
    acc.2 = some p ∨ (p.1 = t0 ∧ p.2 ∈ uD) := by
  induction uD generalizing acc with
  | nil => exact Or.inl h
  | cons d rest ih =>
    simp only [List.foldl_cons] at h
    rcases ih _ h with h' | h'
    · by_cases hgt : m t0 d > acc.1
      · simp only [hgt, if_pos] at h'
        rcases h' with h'
        right
        refine ⟨?_, ?_⟩
        · cases h'; rfl
        · cases h'; simp
      · simp only [hgt, if_neg, not_false_iff] at h'
        exact Or.inl h'
    · exact Or.inr ⟨h'.1, List.mem_cons_of_mem _ h'.2⟩

theorem greedyFindMax_outer_mem (m : ℕ → ℕ → Q) (uD : List ℕ) (p : ℕ × ℕ) :
    ∀ (uT : List ℕ) (acc : Q × Option (ℕ × ℕ)),
    (uT.foldl (fun acc t =>
      uD.foldl (fun acc d =>
        if m t d > acc.1 then (m t d, some (t, d)) else acc) acc) acc).2 = some p →
    acc.2 = some p ∨ (p.1 ∈ uT ∧ p.2 ∈ uD) := by
  intro uT
  induction uT with
  | nil => intro acc hacc; exact Or.inl hacc
  | cons t' rest' ih' =>
    intro acc hacc
    simp only [List.foldl_cons] at hacc
    rcases ih' _ hacc with h' | h'
    · rcases greedyFindMax_inner_mem m t' uD acc p h' with h'' | h''
      · exact Or.inl h''
      · exact Or.inr ⟨h''.1 ▸ List.mem_cons_self _ _, h''.2⟩
    · exact Or.inr ⟨List.mem_cons_of_mem _ h'.1, h'.2⟩

theorem greedyFindMax_mem (m : ℕ → ℕ → Q) (uT uD : List ℕ) (p : ℕ × ℕ)
    (h : (greedyFindMax m uT uD).2 = some p) : p.1 ∈ uT ∧ p.2 ∈ uD := by
  unfold greedyFindMax at h
  rcases greedyFindMax_outer_mem m uD p uT (0, none) h with h' | h'
  · simp at h'
  · exact h'

theorem greedyLoop_noDouble (m : ℕ → ℕ → Q) (thresh : Q) :
    ∀ (fuel : ℕ) (matched : List (ℕ × ℕ)) (uT uD : List ℕ),
    uT.Nodup → uD.Nodup →
    (∀ p ∈ matched, p.1 ∉ uT ∧ p.2 ∉ uD) →
    NoDouble matched →
    NoDouble (greedyLoop m thresh fuel matched uT uD).1 := by
  intro fuel
  induction fuel with
  | zero => intro matched uT uD _ _ _ hm; exact hm
  | succ fuel ih =>
    intro matched uT uD hT hD hsep hm
    unfold greedyLoop
    by_cases hemp : uT.isEmpty ∨ uD.isEmpty
    · simp only [hemp, if_pos]; exact hm
    · simp only [hemp, if_neg, not_false_iff]
      rcases hfm : greedyFindMax m uT uD with ⟨maxIou, op⟩
      cases op with
      | none => simp only []; exact hm
      | some td =>
        simp only []
        by_cases hth : maxIou ≥ thresh
        · simp only [hth, if_pos]
          have hmem : td.1 ∈ uT ∧ td.2 ∈ uD := by
            apply greedyFindMax_mem m uT uD td
            rw [hfm]
          apply ih
          · exact hT.erase _
          · exact hD.erase _
          · intro p hp
            rcases List.mem_append.mp hp with hp | hp
            · have := hsep p hp
              constructor
              · intro hc; exact this.1 (List.mem_of_mem_erase hc)
              · intro hc; exact this.2 (List.mem_of_mem_erase hc)
            · have : p = td := by simpa using hp
              subst this
              constructor
              · intro hc
                exact ((List.Nodup.mem_erase_iff hT).mp hc).1 rfl
              · intro hc
                exact ((List.Nodup.mem_erase_iff hD).mp hc).1 rfl
          · rw [NoDouble, List.pairwise_append]
            refine ⟨hm, by simp [NoDouble], ?_⟩
            intro p hp q hq
            have : q = td := by simpa using hq
            subst this
            have := hsep p hp
            exact ⟨fun hc => this.1 (hc ▸ hmem.1), fun hc => this.2 (hc ▸ hmem.2)⟩
        · simp only [hth, if_neg, not_false_iff]; exact hm

theorem byteAssociate_noDouble (m : ℕ → ℕ → Q) (nT nD : ℕ) (thresh : Q) :
    NoDouble (byteAssociate m nT nD thresh).1 := by
  unfold byteAssociate
  by_cases h : nT = 0 ∨ nD = 0
  · simp [h, NoDouble]
  · simp only [h, if_neg, not_false_iff]
    exact greedyLoop_noDouble m thresh nT [] _ _ (List.nodup_range _)
      (List.nodup_range _) (by simp) (by simp [NoDouble])

/-! ## `OCSort._associate`: optimal assignment plus threshold filter

`OCSort._associate` calls `scipy.optimize.linear_sum_assignment(-iou_matrix)`.
`scipy` is external library code, not part of this repository; we model it by
brute force. -/

/-- All ways to pick `k` ordered, pairwise distinct values out of `avail`. -/
def injections : ℕ → List ℕ → List (List ℕ)
  | 0, _ => [[]]
  | k + 1, avail =>
    avail.flatMap fun c => (injections k (avail.erase c)).map (c :: ·)

/-- Sum of matrix entries over a list of index pairs. -/
def pairsCost (c : ℕ → ℕ → Q) (l : List (ℕ × ℕ)) : Q :=
  (l.map fun p => c p.1 p.2).sum

/-- First element attaining the minimum of `f` (strict comparison keeps the
earliest minimizer). -/
def argminBy {α : Type} (f : α → Q) : List α → Option α
  | [] => none
  | x :: xs => some (xs.foldl (fun b y => if f y < f b then y else b) x)

/-- All maximal one-to-one assignments between `n` rows and `m` columns, as
lists of `(row, column)` pairs of length `min n m`, rows in increasing order
(as `scipy` returns them). -/
def assignmentCandidates (n m : ℕ) : List (List (ℕ × ℕ)) :=
  if n ≤ m then
    (injections n (List.range m)).map ((List.range n).zip ·)
  else
    (injections m (List.range n)).map fun rows =>
      List.insertionSort (fun p q => p.1 ≤ q.1) (rows.zip (List.range m))

/-- Model of `scipy.optimize.linear_sum_assignment`: the external solver
returns a minimum-total-cost maximal assignment; its tie-break among equally
cheap assignments is unspecified, fixed here as the first optimum in the
enumeration order of `assignmentCandidates`. -/
def lsa (cost : ℕ → ℕ → Q) (n m : ℕ) : List (ℕ × ℕ) :=
  (argminBy (pairsCost cost) (assignmentCandidates n m)).getD []

/-- `OCSort._associate`: empty-input early return, otherwise
`linear_sum_assignment` on the negated IoU matrix followed by the threshold
filter (`iou_matrix[row, col] >= iou_threshold`) that also removes the matched
indices from the unmatched lists.  Returns
`(matched pairs, unmatched detection indices, unmatched track indices)`. -/
def hungarianAssociate (m : ℕ → ℕ → Q) (nT nD : ℕ) (thresh : Q) :
    List (ℕ × ℕ) × List ℕ × List ℕ :=
  if nT = 0 ∨ nD = 0 then ([], List.range nD, List.range nT)
  else
    let pairs := lsa (fun t d => -(m t d)) nT nD
    let step := pairs.foldl
      (fun acc rc =>
        if m rc.1 rc.2 ≥ thresh then
          (acc.1 ++ [rc], acc.2.1.erase rc.1, acc.2.2.erase rc.2)
        else acc)
      ([], List.range nT, List.range nD)
    (step.1, step.2.2, step.2.1)

theorem injections_spec :
    ∀ (k : ℕ) (avail : List ℕ), avail.Nodup →
    ∀ l ∈ injections k avail, l.Nodup ∧ ∀ x ∈ l, x ∈ avail := by
  intro k
  induction k with
  | zero =>
    intro avail _ l hl
    simp only [injections] at hl
    rcases hl with hl
    simp only [List.mem_singleton] at hl
    subst hl
    exact ⟨List.nodup_nil, by simp⟩
  | succ k ih =>
    intro avail hav l hl
    simp only [injections, List.mem_flatMap, List.mem_map] at hl
    obtain ⟨c, hc, l', hl', rfl⟩ := hl
    have hne : (avail.erase c).Nodup := hav.erase c
    obtain ⟨h1, h2⟩ := ih (avail.erase c) hne l' hl'
    constructor
    · refine List.nodup_cons.mpr ⟨?_, h1⟩
      intro hcl
      have := h2 c hcl
      exact ((List.Nodup.mem_erase_iff hav).mp this).1 rfl
    · intro x hx
      rcases List.mem_cons.mp hx with rfl | hx
      · exact hc
      · exact List.mem_of_mem_erase (h2 x hx)

theorem zip_noDouble :
    ∀ (l₁ l₂ : List ℕ), l₁.Nodup → l₂.Nodup → NoDouble (l₁.zip l₂) := by
  intro l₁
  induction l₁ with
  | nil => intro l₂ _ _; simp [NoDouble]
  | cons a l₁ ih =>
    intro l₂ h1 h2
    cases l₂ with
    | nil => simp [NoDouble]
    | cons b l₂ =>
      rw [List.zip_cons_cons, NoDouble, List.pairwise_cons]
      refine ⟨?_, ih l₂ (List.nodup_cons.mp h1).2 (List.nodup_cons.mp h2).2⟩
      intro q hq
      have hmem := List.of_mem_zip hq
      exact ⟨fun hc => (List.nodup_cons.mp h1).1
               ((show q.1 = a from hc.symm) ▸ hmem.1),
             fun hc => (List.nodup_cons.mp h2).1
               ((show q.2 = b from hc.symm) ▸ hmem.2)⟩

theorem noDouble_symm :
    Symmetric (fun p q : ℕ × ℕ => p.1 ≠ q.1 ∧ p.2 ≠ q.2) := by
  intro p q h
  exact ⟨h.1.symm, h.2.symm⟩

theorem assignmentCandidates_noDouble (n m : ℕ) :
    ∀ c ∈ assignmentCandidates n m, NoDouble c := by
  intro c hc
  unfold assignmentCandidates at hc
  by_cases h : n ≤ m
  · simp only [h, if_pos, List.mem_map] at hc
    obtain ⟨cols, hcols, rfl⟩ := hc
    have := injections_spec n (List.range m) (List.nodup_range _) cols hcols
    exact zip_noDouble _ _ (List.nodup_range _) this.1
  · simp only [h, if_neg, not_false_iff, List.mem_map] at hc
    obtain ⟨rows, hrows, rfl⟩ := hc
    have hr := injections_spec m (List.range n) (List.nodup_range _) rows hrows
    have hz : NoDouble (rows.zip (List.range m)) :=
      zip_noDouble _ _ hr.1 (List.nodup_range _)
    have hperm := List.perm_insertionSort (fun p q : ℕ × ℕ => p.1 ≤ q.1)
      (rows.zip (List.range m))
    exact ((hperm.pairwise_iff (fun h => ⟨h.1.symm, h.2.symm⟩)).mpr hz)

theorem argminBy_mem {α : Type} (f : α → Q) :
    ∀ (l : List α) (x : α), argminBy f l = some x → x ∈ l := by
  intro l
  cases l with
  | nil => intro x h; simp [argminBy] at h
  | cons a xs =>
    intro x h
    simp only [argminBy, Option.some_inj] at h
    subst h
    have : ∀ (ys : List α) (b : α), b ∈ a :: xs →
        (∀ y ∈ ys, y ∈ a :: xs) →
        ys.foldl (fun b y => if f y < f b then y else b) b ∈ a :: xs := by
      intro ys
      induction ys with
      | nil => intro b hb _; exact hb
      | cons y ys ih =>
        intro b hb hys
        simp only [List.foldl_cons]
        by_cases hlt : f y < f b
        · simp only [hlt, if_pos]
          exact ih y (hys y (List.mem_cons_self _ _))
            (fun z hz => hys z (List.mem_cons_of_mem _ hz))
        · simp only [hlt, if_neg, not_false_iff]
          exact ih b hb (fun z hz => hys z (List.mem_cons_of_mem _ hz))
    exact this xs a (List.mem_cons_self _ _) (fun z hz => List.mem_cons_of_mem _ hz)

theorem lsa_noDouble (cost : ℕ → ℕ → Q) (n m : ℕ) : NoDouble (lsa cost n m) := by
  unfold lsa
  rcases h : argminBy (pairsCost cost) (assignmentCandidates n m) with _ | c
  · simp [NoDouble]
  · simp only [Option.getD_some]
    exact assignmentCandidates_noDouble n m c (argminBy_mem _ _ _ h)

/-- The matched part of the `OCSort._associate` threshold-filter fold is the
initial accumulator followed by the pairs that clear the threshold (the filter
condition does not depend on the accumulator). -/
theorem hungarianFold_matched (m : ℕ → ℕ → Q) (thresh : Q) :
    ∀ (pairs : List (ℕ × ℕ)) (acc : List (ℕ × ℕ) × List ℕ × List ℕ),
    (pairs.foldl
      (fun acc rc =>
        if m rc.1 rc.2 ≥ thresh then
          (acc.1 ++ [rc], acc.2.1.erase rc.1, acc.2.2.erase rc.2)
        else acc) acc).1
    = acc.1 ++ pairs.filter (fun rc => m rc.1 rc.2 ≥ thresh) := by
  intro pairs
  induction pairs with
  | nil => intro acc; simp
  | cons rc pairs ih =>
    intro acc
    simp only [List.foldl_cons]
    by_cases h : m rc.1 rc.2 ≥ thresh
    · rw [if_pos h, ih]
      simp [List.filter_cons, h]
    · rw [if_neg h, ih]
      simp [List.filter_cons, h]

theorem hungarianAssociate_noDouble (m : ℕ → ℕ → Q) (nT nD : ℕ) (thresh : Q) :
    NoDouble (hungarianAssociate m nT nD thresh).1 := by
  unfold hungarianAssociate
  by_cases h : nT = 0 ∨ nD = 0
  · simp [h, NoDouble]
  · simp only [h, if_neg, not_false_iff]
    rw [hungarianFold_matched, List.nil_append]
    exact noDouble_sublist (List.filter_sublist _) (lsa_noDouble _ nT nD)

/-! ## The `TrackingService.update` greedy matcher

`TrackingService.update` builds `cost_matrix[i, j] = dist * (1 - iou * 0.7)`
with `dist` a Euclidean centre distance (`math.sqrt`).  Both factors are
nonnegative (`iou ∈ [0, 1]`), so comparing two costs, or a cost against
`max_distance`, is equivalent to comparing their squares; the model works with
the squared cost matrix `costSq i j = distSq * (1 - iou * 0.7)^2` and decides
`cost < max_distance` as `0 < max_distance ∧ costSq < max_distance^2`,
exactly the comparisons the Python performs on floats. -/

/-- One column step of the inner scan of the greedy matcher in
`TrackingService.update`: skip assigned columns, then take `(cost, i, j)` when
`cost_matrix[i, j] < min_cost and cost_matrix[i, j] < self.max_distance`
(`min_cost` starts at `inf`, modelled by `none`). -/
def tsScanStep (costSq : ℕ → ℕ → Q) (maxD : Q) (i : ℕ) (aD : List ℕ)
    (acc : Option (Q × ℕ × ℕ)) (j : ℕ) : Option (Q × ℕ × ℕ) :=
  if j ∈ aD then acc
  else if (match acc with
      | none => true
      | some a => decide (costSq i j < a.1))
      && (decide (0 < maxD) && decide (costSq i j < maxD * maxD)) then
    some (costSq i j, i, j)
  else acc

/-- One row step: skip assigned rows, otherwise scan all columns. -/
def tsRowStep (costSq : ℕ → ℕ → Q) (maxD : Q) (nD : ℕ) (aT aD : List ℕ)
    (acc : Option (Q × ℕ × ℕ)) (i : ℕ) : Option (Q × ℕ × ℕ) :=
  if i ∈ aT then acc
  else (List.range nD).foldl (tsScanStep costSq maxD i aD) acc

/-- The inner double scan of the greedy matcher in `TrackingService.update`:
smallest still-unassigned squared cost below the squared gate, first strict
minimum kept, rows then columns in index order. -/
def tsFindMin (costSq : ℕ → ℕ → Q) (maxD : Q) (nT nD : ℕ)
    (aT aD : List ℕ) : Option (Q × ℕ × ℕ) :=
  (List.range nT).foldl (tsRowStep costSq maxD nD aT aD) none

/-- The `for _ in range(min(len(track_ids), len(det_boxes)))` loop: each round
takes the scan's minimum, if any, and records the pair in the assigned sets;
a round without a selectable pair does nothing (the Python has no `break`). -/
def tsGreedyLoop (costSq : ℕ → ℕ → Q) (maxD : Q) (nT nD : ℕ) :
    ℕ → List (ℕ × ℕ) → List ℕ → List ℕ →
    List (ℕ × ℕ) × List ℕ × List ℕ
  | 0, matched, aT, aD => (matched, aT, aD)
  | k + 1, matched, aT, aD =>
    match tsFindMin costSq maxD nT nD aT aD with
    | some (_, i, j) =>
      tsGreedyLoop costSq maxD nT nD k (matched ++ [(i, j)]) (aT ++ [i]) (aD ++ [j])
    | none => tsGreedyLoop costSq maxD nT nD k matched aT aD

/-- The greedy association of `TrackingService.update`: returns the matched
`(track position, detection position)` pairs. -/
def tsGreedy (costSq : ℕ → ℕ → Q) (maxD : Q) (nT nD : ℕ) :
    List (ℕ × ℕ) × List ℕ × List ℕ :=
  tsGreedyLoop costSq maxD nT nD (min nT nD) [] [] []

theorem tsScan_notMem (costSq : ℕ → ℕ → Q) (maxD : Q) (i0 : ℕ)
    (aD : List ℕ) :
    ∀ (uD : List ℕ) (acc : Option (Q × ℕ × ℕ)) (c : Q) (i j : ℕ),
    uD.foldl (tsScanStep costSq maxD i0 aD) acc = some (c, i, j) →
    acc = some (c, i, j) ∨ (i = i0 ∧ j ∉ aD) := by
  intro uD
  induction uD with
  | nil => intro acc c i j h; exact Or.inl h
  | cons d uD ih =>
    intro acc c i j h
    simp only [List.foldl_cons] at h
    rcases ih _ _ _ _ h with h' | h'
    · unfold tsScanStep at h'
      by_cases hd : d ∈ aD
      · rw [if_pos hd] at h'
        exact Or.inl h'
      · rw [if_neg hd] at h'
        split at h'
        · injection h' with h1
          injection h1 with h2 h3
          injection h3 with h4 h5
          exact Or.inr ⟨h4.symm, h5 ▸ hd⟩
        · exact Or.inl h'
    · exact Or.inr h'

theorem tsFindMin_notMem (costSq : ℕ → ℕ → Q) (maxD : Q) (nT nD : ℕ)
    (aT aD : List ℕ) (c : Q) (i j : ℕ)
    (h : tsFindMin costSq maxD nT nD aT aD = some (c, i, j)) :
    i ∉ aT ∧ j ∉ aD := by
  unfold tsFindMin at h
  have key : ∀ (uT : List ℕ) (acc : Option (Q × ℕ × ℕ)),
      uT.foldl (tsRowStep costSq maxD nD aT aD) acc = some (c, i, j) →
      acc = some (c, i, j) ∨ (i ∉ aT ∧ j ∉ aD) := by
    intro uT
    induction uT with
    | nil => intro acc h; exact Or.inl h
    | cons t uT ih =>
      intro acc h
      simp only [List.foldl_cons] at h
      rcases ih _ h with h' | h'
      · unfold tsRowStep at h'
        by_cases ht : t ∈ aT
        · rw [if_pos ht] at h'
          exact Or.inl h'
        · rw [if_neg ht] at h'
          rcases tsScan_notMem costSq maxD t aD (List.range nD) acc c i j h' with h'' | h''
          · exact Or.inl h''
          · exact Or.inr ⟨h''.1 ▸ ht, h''.2⟩
      · exact Or.inr h'
  rcases key (List.range nT) none h with h' | h'
  · simp at h'
  · exact h'

theorem tsGreedyLoop_noDouble (costSq : ℕ → ℕ → Q) (maxD : Q) (nT nD : ℕ) :
    ∀ (k : ℕ) (matched : List (ℕ × ℕ)) (aT aD : List ℕ),
    (∀ p ∈ matched, p.1 ∈ aT ∧ p.2 ∈ aD) →
    NoDouble matched →
    NoDouble (tsGreedyLoop costSq maxD nT nD k matched aT aD).1 := by
  intro k
  induction k with
  | zero => intro matched aT aD _ hm; exact hm
  | succ k ih =>
    intro matched aT aD hsep hm
    unfold tsGreedyLoop
    rcases hf : tsFindMin costSq maxD nT nD aT aD with _ | ⟨c, i, j⟩
    · exact ih matched aT aD hsep hm
    · have hnm := tsFindMin_notMem costSq maxD nT nD aT aD c i j hf
      apply ih
      · intro p hp
        rcases List.mem_append.mp hp with hp | hp
        · have := hsep p hp
          exact ⟨List.mem_append_left _ this.1, List.mem_append_left _ this.2⟩
        · have : p = (i, j) := by simpa using hp
          subst this
          exact ⟨List.mem_append_right _ (List.mem_singleton_self _),
                 List.mem_append_right _ (List.mem_singleton_self _)⟩
      · rw [NoDouble, List.pairwise_append]
        refine ⟨hm, by simp [NoDouble], ?_⟩
        intro p hp q hq
        have : q = (i, j) := by simpa using hq
        subst this
        have := hsep p hp
        exact ⟨fun hc => hnm.1 ((show p.1 = i from hc) ▸ this.1),
               fun hc => hnm.2 ((show p.2 = j from hc) ▸ this.2)⟩

theorem tsGreedy_noDouble (costSq : ℕ → ℕ → Q) (maxD : Q) (nT nD : ℕ) :
    NoDouble (tsGreedy costSq maxD nT nD).1 :=
  tsGreedyLoop_noDouble costSq maxD nT nD _ [] [] [] (by simp) (by simp [NoDouble])

/-- **C1** (confirmed).  In every association stage — the greedy maximum-IoU
matcher of `ByteTracker._associate`, the Hungarian-plus-threshold matcher of
`OCSort._associate`, and the greedy distance/IoU cost matcher of
`TrackingService.update` — for every cost/IoU matrix, every pair of input
sizes and every threshold, the returned matching pairs each track index with
at most one detection index and each detection index with at most one track
index. -/
theorem C1_no_double_assignment :
    (∀ (m : ℕ → ℕ → Q) (nT nD : ℕ) (thresh : Q),
      NoDouble (byteAssociate m nT nD thresh).1) ∧
    (∀ (m : ℕ → ℕ → Q) (nT nD : ℕ) (thresh : Q),
      NoDouble (hungarianAssociate m nT nD thresh).1) ∧
    (∀ (costSq : ℕ → ℕ → Q) (maxD : Q) (nT nD : ℕ),
      NoDouble (tsGreedy costSq maxD nT nD).1) :=
  ⟨byteAssociate_noDouble, hungarianAssociate_noDouble, tsGreedy_noDouble⟩

/-! ## `TrackingService` (src/services/tracking.py)

The service keeps `self.tracks`, a Python dict from track id to a mutable
record; dict iteration order is insertion order, so the model uses an
association list.  The `color` triple drawn from `np.random.randint` at track
creation never influences any logic; it is an oracle `colors` indexed by the
created id. -/

/-- Positional in-place update of one list element (Python mutation of
`tracks[tid]` through its position in `list(tracks.keys())`). -/
def modifyAt {α : Type} : ℕ → (α → α) → List α → List α
  | _, _, [] => []
  | 0, f, a :: l => f a :: l
  | n + 1, f, a :: l => a :: modifyAt n f l

/-- One entry of `self.tracks`: `{'box': [x1, y1, x2, y2, conf], 'age': …,
'active': …, 'color': …}`. -/
structure TSTrack where
  box : Tlbr
  conf : Q
  age : ℕ
  active : Bool
  color : ℕ × ℕ × ℕ
deriving DecidableEq, Repr

instance : Inhabited TSTrack := ⟨⟨⟨0, 0, 0, 0⟩, 0, 0, false, (0, 0, 0)⟩⟩

instance : Inhabited Tlbr := ⟨⟨0, 0, 0, 0⟩⟩

instance : Inhabited Tlwh := ⟨⟨0, 0, 0, 0⟩⟩

/-- A detection dict `{'x', 'y', 'width', 'height', 'confidence'}` as produced
by the detector services. -/
structure TSDet where
  x : Q
  y : Q
  width : Q
  height : Q
  confidence : Q
deriving DecidableEq, Repr

/-- `TrackingService` state: the id-ordered track dict and `self.next_id`. -/
structure TSState where
  tracks : List (ℕ × TSTrack)
  next_id : ℕ
deriving DecidableEq, Repr

/-- Constructor parameters of `TrackingService`. -/
structure TSCfg where
  max_distance : Q
  max_age : ℕ
deriving DecidableEq, Repr

/-- An output dict of `TrackingService._format_results`. -/
structure TSResult where
  id : ℕ
  x : Q
  y : Q
  width : Q
  height : Q
  confidence : Q
  active : Bool
  age : ℕ
  color : ℕ × ℕ × ℕ
deriving DecidableEq, Repr

/-- Squared centre distance.  `TrackingService._calculate_distance` returns
`math.sqrt` of this; every use compares it (possibly scaled by a nonnegative
factor) against other values of the same form, so the model keeps the square
and squares the other side of each comparison. -/
def tsDistSq (box1 box2 : Tlbr) : Q :=
  let c1 : Q × Q := ((box1.x1 + box1.x2) / 2, (box1.y1 + box1.y2) / 2)
  let c2 : Q × Q := ((box2.x1 + box2.x2) / 2, (box2.y1 + box2.y2) / 2)
  (c1.1 - c2.1) * (c1.1 - c2.1) + (c1.2 - c2.2) * (c1.2 - c2.2)

/-- `TrackingService._calculate_iou`: same formula as the trackers' `_iou`,
with the guard written as `inter / union if union > 0 else 0`. -/
def tsIou (box1 box2 : Tlbr) : Q :=
  let xi1 := qmax box1.x1 box2.x1
  let yi1 := qmax box1.y1 box2.y1
  let xi2 := qmin box1.x2 box2.x2
  let yi2 := qmin box1.y2 box2.y2
  if xi2 ≤ xi1 ∨ yi2 ≤ yi1 then 0
  else
    let inter := (xi2 - xi1) * (yi2 - yi1)
    let area1 := (box1.x2 - box1.x1) * (box1.y2 - box1.y1)
    let area2 := (box2.x2 - box2.x1) * (box2.y2 - box2.y1)
    let union := area1 + area2 - inter
    if union > 0 then inter / union else 0

/-- Squared association cost `(dist * (1 - iou * 0.7))^2`.  The unsquared cost
is the product of two nonnegative factors (`iou ∈ [0, 1]` whenever nonzero),
so the squared forms compare identically. -/
def tsCostSq (tBox dBox : Tlbr) : Q :=
  tsDistSq tBox dBox * ((1 - tsIou tBox dBox * (7 / 10)) * (1 - tsIou tBox dBox * (7 / 10)))

/-- `detections` → `det_boxes`: `[x, y, x + width, y + height, confidence]`,
with no validation of any kind. -/
def tsDetBoxes (dets : List TSDet) : List (Tlbr × Q) :=
  dets.map fun d => (⟨d.x, d.y, d.x + d.width, d.y + d.height⟩, d.confidence)

/-- Effect of a stage match on the stored track: `box` (and its trailing
confidence) replaced by the detection, `age = 0`, `active = True`. -/
def tsApplyDet (db : Tlbr × Q) (t : TSTrack) : TSTrack :=
  { t with box := db.1, conf := db.2, age := 0, active := true }

/-- Apply all greedy matches (positional into the ordered dict). -/
def tsApplyMatches (detB : List (Tlbr × Q)) (ms : List (ℕ × ℕ))
    (l : List (ℕ × TSTrack)) : List (ℕ × TSTrack) :=
  ms.foldl
    (fun l m => modifyAt m.1 (fun p => (p.1, tsApplyDet (detB.getD m.2 default) p.2)) l)
    l

/-- The new-track creation loop: every detection index not in
`assigned_detections` gets a fresh id and an `age = 0`, `active = True`
entry with an oracle colour. -/
def tsCreate (colors : ℕ → ℕ × ℕ × ℕ) (detB : List (Tlbr × Q))
    (assignedD : List ℕ) (l : List (ℕ × TSTrack)) (nextId : ℕ) :
    List (ℕ × TSTrack) × ℕ :=
  (List.range detB.length).foldl
    (fun acc j =>
      if j ∈ assignedD then acc
      else
        (acc.1 ++ [(acc.2, ⟨(detB.getD j default).1, (detB.getD j default).2,
          0, true, colors acc.2⟩)], acc.2 + 1))
    (l, nextId)

/-- `_format_results` output entry for one stored track. -/
def tsEntry (p : ℕ × TSTrack) : TSResult :=
  ⟨p.1, p.2.box.x1, p.2.box.y1, p.2.box.x2 - p.2.box.x1,
   p.2.box.y2 - p.2.box.y1, p.2.conf, p.2.active, p.2.age, p.2.color⟩

/-- `TrackingService._format_results`: tracks with `active or age <= 5`. -/
def tsFormat (l : List (ℕ × TSTrack)) : List TSResult :=
  (l.filter fun p => p.2.active || decide (p.2.age ≤ 5)).map tsEntry

/-- `TrackingService.update`: age and deactivate all tracks, drop tracks older
than `max_age`, early-return on no detections, greedily associate, apply
matches, create tracks for unassigned detections, and return the formatted
results. -/
def tsUpdate (cfg : TSCfg) (colors : ℕ → ℕ × ℕ × ℕ) (s : TSState)
    (detections : List TSDet) : TSState × List TSResult :=
  let aged := s.tracks.map fun p => (p.1, { p.2 with age := p.2.age + 1, active := false })
  let alive := aged.filter fun p => decide (p.2.age ≤ cfg.max_age)
  if detections.isEmpty then (⟨alive, s.next_id⟩, tsFormat alive)
  else
    let detB := tsDetBoxes detections
    let costM : ℕ → ℕ → Q := fun i j =>
      tsCostSq ((alive.getD i default).2.box) ((detB.getD j default).1)
    let matched := (tsGreedy costM cfg.max_distance alive.length detB.length).1
    let updated := tsApplyMatches detB matched alive
    let created := tsCreate colors detB (matched.map Prod.snd) updated s.next_id
    (⟨created.1, created.2⟩, tsFormat created.1)

theorem mem_modifyAt {α : Type} (f : α → α) :
    ∀ (n : ℕ) (l : List α) (a : α), a ∈ modifyAt n f l →
    a ∈ l ∨ ∃ b ∈ l, a = f b := by
  intro n
  induction n with
  | zero =>
    intro l a ha
    cases l with
    | nil => simp [modifyAt] at ha
    | cons x l =>
      simp only [modifyAt, List.mem_cons] at ha
      rcases ha with rfl | ha
      · exact Or.inr ⟨x, List.mem_cons_self _ _, rfl⟩
      · exact Or.inl (List.mem_cons_of_mem _ ha)
  | succ n ih =>
    intro l a ha
    cases l with
    | nil => simp [modifyAt] at ha
    | cons x l =>
      simp only [modifyAt, List.mem_cons] at ha
      rcases ha with rfl | ha
      · exact Or.inl (List.mem_cons_self _ _)
      · rcases ih l a ha with h | ⟨b, hb, rfl⟩
        · exact Or.inl (List.mem_cons_of_mem _ h)
        · exact Or.inr ⟨b, List.mem_cons_of_mem _ hb, rfl⟩

theorem modifyAt_map_fst {α β : Type} (g : α × β → β) :
    ∀ (n : ℕ) (l : List (α × β)),
    (modifyAt n (fun p => (p.1, g p)) l).map Prod.fst = l.map Prod.fst := by
  intro n
  induction n with
  | zero =>
    intro l
    cases l with
    | nil => rfl
    | cons x l => simp [modifyAt]
  | succ n ih =>
    intro l
    cases l with
    | nil => rfl
    | cons x l => simp [modifyAt, ih]

/-- Invariant of the post-update track pool: a track is active precisely when
it was matched or created this frame, in which case its age is `0` (aging sets
every carried-over track to `active = False` and age at least `1`). -/
def TSInv (p : ℕ × TSTrack) : Prop := p.2.active = true ↔ p.2.age = 0

theorem tsApplyMatches_inv (detB : List (Tlbr × Q)) :
    ∀ (ms : List (ℕ × ℕ)) (l : List (ℕ × TSTrack)),
    (∀ p ∈ l, TSInv p) → ∀ p ∈ tsApplyMatches detB ms l, TSInv p := by
  intro ms
  induction ms with
  | nil => intro l hl; exact hl
  | cons m ms ih =>
    intro l hl p hp
    refine ih _ ?_ p hp
    intro q hq
    rcases mem_modifyAt _ _ _ _ hq with h | ⟨b, _, rfl⟩
    · exact hl q h
    · simp [TSInv, tsApplyDet]

theorem tsApplyMatches_map_fst (detB : List (Tlbr × Q)) :
    ∀ (ms : List (ℕ × ℕ)) (l : List (ℕ × TSTrack)),
    (tsApplyMatches detB ms l).map Prod.fst = l.map Prod.fst := by
  intro ms
  induction ms with
  | nil => intro l; rfl
  | cons m ms ih =>
    intro l
    show (tsApplyMatches detB ms _).map Prod.fst = _
    rw [ih, modifyAt_map_fst (fun p => tsApplyDet (detB.getD m.2 default) p.2)]

theorem tsCreate_inv (colors : ℕ → ℕ × ℕ × ℕ) (detB : List (Tlbr × Q))
    (assignedD : List ℕ) :
    ∀ (js : List ℕ) (l : List (ℕ × TSTrack)) (nid : ℕ),
    (∀ p ∈ l, TSInv p) →
    ∀ p ∈ (js.foldl
      (fun acc j =>
        if j ∈ assignedD then acc
        else
          (acc.1 ++ [(acc.2, ⟨(detB.getD j default).1, (detB.getD j default).2,
            0, true, colors acc.2⟩)], acc.2 + 1))
      (l, nid)).1, TSInv p := by
  intro js
  induction js with
  | nil => intro l nid hl; exact hl
  | cons j js ih =>
    intro l nid hl
    simp only [List.foldl_cons]
    by_cases hj : j ∈ assignedD
    · rw [if_pos hj]; exact ih l nid hl
    · rw [if_neg hj]
      apply ih
      intro p hp
      rcases List.mem_append.mp hp with h | h
      · exact hl p h
      · have : p = (nid, ⟨(detB.getD j default).1, (detB.getD j default).2,
          0, true, colors nid⟩) := by simpa using h
        subst this
        simp [TSInv]

theorem tsCreate_keys (colors : ℕ → ℕ × ℕ × ℕ) (detB : List (Tlbr × Q))
    (assignedD : List ℕ) :
    ∀ (js : List ℕ) (l : List (ℕ × TSTrack)) (nid : ℕ) (k : ℕ),
    k ∈ l.map Prod.fst →
    k ∈ ((js.foldl
      (fun acc j =>
        if j ∈ assignedD then acc
        else
          (acc.1 ++ [(acc.2, ⟨(detB.getD j default).1, (detB.getD j default).2,
            0, true, colors acc.2⟩)], acc.2 + 1))
      (l, nid)).1).map Prod.fst := by
  intro js
  induction js with
  | nil => intro l nid k hk; exact hk
  | cons j js ih =>
    intro l nid k hk
    simp only [List.foldl_cons]
    by_cases hj : j ∈ assignedD
    · rw [if_pos hj]; exact ih l nid k hk
    · rw [if_neg hj]
      apply ih
      rw [List.map_append]
      exact List.mem_append_left _ hk

theorem tsPost_inv (cfg : TSCfg) (colors : ℕ → ℕ × ℕ × ℕ) (s : TSState)
    (dets : List TSDet) :
    ∀ p ∈ (tsUpdate cfg colors s dets).1.tracks, TSInv p := by
  unfold tsUpdate
  have haged : ∀ p ∈ (s.tracks.map fun p =>
      (p.1, { p.2 with age := p.2.age + 1, active := false })).filter
      (fun p => decide (p.2.age ≤ cfg.max_age)), TSInv p := by
    intro p hp
    have hp' := List.mem_of_mem_filter hp
    rw [List.mem_map] at hp'
    obtain ⟨q, _, rfl⟩ := hp'
    simp [TSInv]
  by_cases hd : dets.isEmpty = true
  · rw [if_pos hd]
    exact haged
  · rw [if_neg hd]
    intro p hp
    exact tsCreate_inv colors (tsDetBoxes dets) _ _ _ _
      (tsApplyMatches_inv (tsDetBoxes dets) _ _ haged) p hp

/-- **C10** (confirmed).  A call to `TrackingService.update` returns exactly
the surviving tracks of age at most 5 (so unmatched tracks older than 5 frames
are omitted); a returned entry is flagged `active` precisely when it was
matched or created in this frame (age 0), so surviving unmatched tracks appear
with `active = False`; and every prior track whose incremented age stays
within `max_age` is retained internally. -/
theorem C10_update_result (cfg : TSCfg) (colors : ℕ → ℕ × ℕ × ℕ)
    (s : TSState) (dets : List TSDet) :
    ((tsUpdate cfg colors s dets).2
      = (((tsUpdate cfg colors s dets).1.tracks.filter
          fun p => decide (p.2.age ≤ 5)).map tsEntry)) ∧
    (∀ e ∈ (tsUpdate cfg colors s dets).2, e.active = true ↔ e.age = 0) ∧
    (∀ p ∈ s.tracks, p.2.age + 1 ≤ cfg.max_age →
      p.1 ∈ (tsUpdate cfg colors s dets).1.tracks.map Prod.fst) := by
  have hinv := tsPost_inv cfg colors s dets
  have hfmt : (tsUpdate cfg colors s dets).2
      = tsFormat (tsUpdate cfg colors s dets).1.tracks := by
    unfold tsUpdate
    by_cases hd : dets.isEmpty = true
    · rw [if_pos hd]
    · rw [if_neg hd]
  refine ⟨?_, ?_, ?_⟩
  · rw [hfmt]
    unfold tsFormat
    congr 1
    apply List.filter_congr
    intro p hp
    have hp' := hinv p hp
    cases hact : p.2.active with
    | true => simp [TSInv, hact] at hp'; simp [hp']
    | false => simp
  · intro e he
    rw [hfmt] at he
    unfold tsFormat at he
    rw [List.mem_map] at he
    obtain ⟨p, hp, rfl⟩ := he
    have hp' := hinv p (List.mem_of_mem_filter hp)
    unfold TSInv at hp'
    exact hp'
  · intro p hp hage
    have hmem : (p.1, { p.2 with age := p.2.age + 1, active := false })
        ∈ (s.tracks.map fun p =>
          (p.1, { p.2 with age := p.2.age + 1, active := false })).filter
          (fun p => decide (p.2.age ≤ cfg.max_age)) := by
      apply List.mem_filter.mpr
      refine ⟨List.mem_map.mpr ⟨p, hp, rfl⟩, by simpa using hage⟩
    have hkey : p.1 ∈ ((s.tracks.map fun p =>
        (p.1, { p.2 with age := p.2.age + 1, active := false })).filter
        (fun p => decide (p.2.age ≤ cfg.max_age))).map Prod.fst :=
      List.mem_map.mpr ⟨_, hmem, rfl⟩
    unfold tsUpdate
    by_cases hd : dets.isEmpty = true
    · rw [if_pos hd]
      exact hkey
    · rw [if_neg hd]
      apply tsCreate_keys
      rw [tsApplyMatches_map_fst]
      exact hkey

/-- Concrete `TrackingService` configuration (the constructor defaults
`max_distance=150`, `max_age=30`). -/
def tsCfg0 : TSCfg := ⟨150, 30⟩

/-- Colour oracle for concrete runs (colours never influence logic). -/
def tsColors0 : ℕ → ℕ × ℕ × ℕ := fun _ => (0, 0, 0)

/-- A concrete service state: track 1 freshly matched, track 2 unmatched for
7 frames. -/
def tsS0 : TSState :=
  ⟨[(1, ⟨⟨0, 0, 10, 10⟩, 9/10, 0, true, (1, 2, 3)⟩),
    (2, ⟨⟨100, 100, 110, 110⟩, 1/2, 7, false, (4, 5, 6)⟩)], 3⟩

/-- One concrete detection sitting exactly on track 1. -/
def tsDets0 : List TSDet := [⟨0, 0, 10, 10, 4/5⟩]

theorem C10_update_result_witness :
    (tsEntry (1, ⟨⟨0, 0, 10, 10⟩, 4/5, 0, true, (1, 2, 3)⟩)
        ∈ (tsUpdate tsCfg0 tsColors0 tsS0 tsDets0).2
      ∧ ((tsEntry (1, ⟨⟨0, 0, 10, 10⟩, 4/5, 0, true, (1, 2, 3)⟩)).active = true
        ↔ (tsEntry (1, ⟨⟨0, 0, 10, 10⟩, 4/5, 0, true, (1, 2, 3)⟩)).age = 0))
    ∧ ((2, (⟨⟨100, 100, 110, 110⟩, 1/2, 7, false, (4, 5, 6)⟩ : TSTrack))
        ∈ tsS0.tracks
      ∧ 7 + 1 ≤ tsCfg0.max_age
      ∧ 2 ∈ (tsUpdate tsCfg0 tsColors0 tsS0 tsDets0).1.tracks.map Prod.fst) :=
  ⟨⟨by decide,
    (C10_update_result tsCfg0 tsColors0 tsS0 tsDets0).2.1 _ (by decide)⟩,
   ⟨by decide, by decide,
    (C10_update_result tsCfg0 tsColors0 tsS0 tsDets0).2.2
      (2, ⟨⟨100, 100, 110, 110⟩, 1/2, 7, false, (4, 5, 6)⟩)
      (by decide) (by decide)⟩⟩

/-! ## `STrack` and `ByteTracker` (src/bytetrack_tracker.py) -/

/-- Lifecycle states: `'new' | 'tracked' | 'lost' | 'removed'`. -/
inductive TState where
  | new
  | tracked
  | lost
  | removed
deriving DecidableEq, Repr

/-- `STrack`.  Fields never read on any code path are omitted: the Kalman
placeholders `mean`/`covariance` (always `None` here), the wall-clock stamps
`first_seen`/`last_seen`, and the `history` deque of centres. -/
structure STrack where
  tlwh : Tlwh
  score : Q
  track_id : Option ℕ
  is_activated : Bool
  state : TState
  frame_id : ℕ
  tracklet_len : ℕ
  start_frame : ℕ
  time_since_update : ℕ
deriving DecidableEq, Repr

instance : Inhabited STrack :=
  ⟨⟨default, 0, none, false, .new, 0, 0, 0, 0⟩⟩

/-- `STrack.__init__(tlwh, score)`. -/
def STrack.mk0 (tlwh : Tlwh) (score : Q) : STrack :=
  ⟨tlwh, score, none, false, .new, 0, 0, 0, 0⟩

/-- `STrack.update(new_track, frame_id)`: adopt the detection's box and score,
reset the staleness counter, bump the hit counter, transition `new → tracked`,
activate.  (The appended `history` centre is never read.) -/
def STrack.updateT (d : Tlwh × Q) (fid : ℕ) (t : STrack) : STrack :=
  { t with
    tlwh := d.1
    score := d.2
    frame_id := fid
    tracklet_len := t.tracklet_len + 1
    time_since_update := 0
    state := if t.state = .new then .tracked else t.state
    is_activated := true }

/-- `STrack.predict()`: bump `time_since_update`, to `lost` once it passes 1. -/
def STrack.predictT (t : STrack) : STrack :=
  let tsu := t.time_since_update + 1
  { t with
    time_since_update := tsu
    state := if 1 < tsu then .lost else t.state }

/-- `STrack.activate(frame_id, track_id)`. -/
def STrack.activateT (fid tid : ℕ) (t : STrack) : STrack :=
  { t with
    track_id := some tid
    start_frame := fid
    frame_id := fid
    is_activated := true
    state := .tracked }

/-- The unmatched-track branch of `ByteTracker.update`:
`mark_lost()` while `time_since_update <= 1`, else `mark_removed()`. -/
def STrack.markUnmatched (t : STrack) : STrack :=
  if t.time_since_update ≤ 1 then { t with state := .lost }
  else { t with state := .removed }

/-- A raw 4-number detection box, as handed to `update` (either `tlbr` or
`tlwh`; the tracker guesses from the coordinate ordering).  Detections with a
length other than 4 are skipped by the source and excluded from the model. -/
structure Raw4 where
  a : Q
  b : Q
  c : Q
  d : Q
deriving DecidableEq, Repr

/-- `ByteTracker` constructor parameters (`frame_rate` is never read). -/
structure ByteCfg where
  track_thresh : Q
  track_buffer : ℕ
  match_thresh : Q
  mot20 : Bool
deriving Repr

/-- `ByteTracker` mutable state. -/
structure ByteState where
  frame_id : ℕ
  tracked_stracks : List STrack
  lost_stracks : List STrack
  removed_stracks : List STrack
  track_id_count : ℕ
  total_tracks_created : ℕ
deriving DecidableEq, Repr

/-- Fresh `ByteTracker()` state. -/
def byteInit : ByteState := ⟨0, [], [], [], 0, 0⟩

/-- The detection-conversion loop of `ByteTracker.update`: a box whose third
and fourth entries strictly exceed the first two is read as `tlbr` and
converted, anything else is read as `tlwh` unchanged; only detections with
`score >= track_thresh` become candidate tracks.  (Only the `tlwh` and `score`
of the created `STrack` objects are ever read before activation, so the model
keeps the pair.) -/
def byteConvert (thresh : Q) (dets : List (Raw4 × Q)) : List (Tlwh × Q) :=
  dets.filterMap fun rd =>
    let r := rd.1
    let tlwh : Tlwh :=
      if r.a < r.c ∧ r.b < r.d then ⟨r.a, r.b, r.c - r.a, r.d - r.b⟩
      else ⟨r.a, r.b, r.c, r.d⟩
    if rd.2 ≥ thresh then some (tlwh, rd.2) else none

/-- The `mot20` low-score split: `score < track_thresh and score >= 0.1`
over the already-converted candidates (which all passed the
`score >= track_thresh` conversion filter). -/
def byteLowDets (cfg : ByteCfg) (detected : List (Tlwh × Q)) : List (Tlwh × Q) :=
  if cfg.mot20 then
    detected.filter fun d => d.2 < cfg.track_thresh ∧ d.2 ≥ 1/10
  else []

/-- One step of the new-track creation loop of `ByteTracker.update`:
a leftover detection whose score clears `track_thresh` becomes a fresh
`STrack`, activated with `self._next_id()` (the incremented counter).  The
accumulator carries `(track list, id counter, created ids)`; the created-id
list is ghost output for the identifier claims. -/
def byteCreateStep (thresh : Q) (fid : ℕ) (dets : List (Tlwh × Q))
    (acc : List STrack × ℕ × List ℕ) (i : ℕ) : List STrack × ℕ × List ℕ :=
  let det := dets.getD i default
  if det.2 ≥ thresh then
    (acc.1 ++ [STrack.activateT fid (acc.2.1 + 1) (STrack.mk0 det.1 det.2)],
     acc.2.1 + 1, acc.2.2 ++ [acc.2.1 + 1])
  else acc

/-- `ByteTracker.update`.  Returns the new state, the returned track list
(`self.tracked_stracks`), and — as ghost output for the identifier claims —
the ids assigned to tracks created this frame, in creation order. -/
def byteUpdate (cfg : ByteCfg) (s : ByteState) (dets : List (Raw4 × Q)) :
    ByteState × List STrack × List ℕ :=
  let fid := s.frame_id + 1
  let detected := byteConvert cfg.track_thresh dets
  let high := if cfg.mot20 then detected.filter (fun d => d.2 ≥ cfg.track_thresh)
              else detected
  let low := byteLowDets cfg detected
  -- predict every tracked and lost track
  let trackedP := s.tracked_stracks.map STrack.predictT
  let lostP := s.lost_stracks.map STrack.predictT
  -- first association: high-confidence detections vs tracked tracks
  let m1 := byteAssociate
    (fun t d => iou ((trackedP.getD t default).tlwh.tlbr) ((high.getD d default).1.tlbr))
    trackedP.length high.length cfg.match_thresh
  let tracked1 := m1.1.foldl
    (fun l p => modifyAt p.1 (STrack.updateT (high.getD p.2 default) fid) l) trackedP
  -- second association: leftovers (plus mot20 low-score dets) vs lost tracks
  let unmatchedDetsLow := m1.2.1.map (fun i => high.getD i default) ++ low
  let lostIdx := lostP.enum.filter fun p => p.2.state = .lost
  let m2 := byteAssociate
    (fun t d => iou ((lostIdx.getD t default).2.tlwh.tlbr)
      ((unmatchedDetsLow.getD d default).1.tlbr))
    lostIdx.length unmatchedDetsLow.length (1/2)
  let lost1 := m2.1.foldl
    (fun l p => modifyAt (lostIdx.getD p.1 default).1
      (fun t => { STrack.updateT (unmatchedDetsLow.getD p.2 default) fid t with
        state := .tracked }) l) lostP
  -- unmatched tracked tracks age into lost/removed
  let tracked2 := m1.2.2.foldl (fun l i => modifyAt i STrack.markUnmatched l) tracked1
  -- new tracks from detections unmatched after both stages
  let creation := m2.2.1.foldl (byteCreateStep cfg.track_thresh fid unmatchedDetsLow)
    (tracked2, s.track_id_count, [])
  -- the sequential pool reassignments of lines 204-209
  let trackedF := creation.1.filter fun t => t.state = .tracked
  let lostF := (trackedF ++ lost1).filter fun t => t.state = .lost
  let removedF := s.removed_stracks ++ (trackedF ++ lostF).filter fun t => t.state = .removed
  let lostPruned := lostF.filter fun t => fid - t.frame_id ≤ cfg.track_buffer
  (⟨fid, trackedF, lostPruned, removedF, creation.2.1,
    s.total_tracks_created + creation.2.2.length⟩,
   trackedF, creation.2.2)

/-- Run `ByteTracker` from a given state, concatenating the created ids. -/
def byteRunFrom (cfg : ByteCfg) :
    ByteState → List ℕ → List (List (Raw4 × Q)) → ByteState × List ℕ
  | s, acc, [] => (s, acc)
  | s, acc, f :: fs =>
    let r := byteUpdate cfg s f
    byteRunFrom cfg r.1 (acc ++ r.2.2) fs

/-- Run `ByteTracker()` on a frame sequence from a fresh state. -/
def byteRun (cfg : ByteCfg) (frames : List (List (Raw4 × Q))) : ByteState × List ℕ :=
  byteRunFrom cfg byteInit [] frames

theorem byteCreateStep_pos (thresh : Q) (fid : ℕ) (dets : List (Tlwh × Q))
    (l : List STrack) (cnt : ℕ) (ids : List ℕ) (i : ℕ)
    (h : (dets.getD i default).2 ≥ thresh) :
    byteCreateStep thresh fid dets (l, cnt, ids) i
      = (l ++ [STrack.activateT fid (cnt + 1)
          (STrack.mk0 (dets.getD i default).1 (dets.getD i default).2)],
         cnt + 1, ids ++ [cnt + 1]) := by
  unfold byteCreateStep
  rw [if_pos h]

theorem byteCreateStep_neg (thresh : Q) (fid : ℕ) (dets : List (Tlwh × Q))
    (l : List STrack) (cnt : ℕ) (ids : List ℕ) (i : ℕ)
    (h : ¬ (dets.getD i default).2 ≥ thresh) :
    byteCreateStep thresh fid dets (l, cnt, ids) i = (l, cnt, ids) := by
  unfold byteCreateStep
  rw [if_neg h]

theorem byteCreateStep_ids (thresh : Q) (fid : ℕ) (dets : List (Tlwh × Q)) :
    ∀ (idxs : List ℕ) (l : List STrack) (cnt : ℕ) (ids : List ℕ),
    ∃ k, (idxs.foldl (byteCreateStep thresh fid dets) (l, cnt, ids)).2.2
        = ids ++ List.range' (cnt + 1) k
      ∧ (idxs.foldl (byteCreateStep thresh fid dets) (l, cnt, ids)).2.1 = cnt + k := by
  intro idxs
  induction idxs with
  | nil => intro l cnt ids; exact ⟨0, by simp [List.range']⟩
  | cons i idxs ih =>
    intro l cnt ids
    rw [List.foldl_cons]
    by_cases h : (dets.getD i default).2 ≥ thresh
    · rw [byteCreateStep_pos thresh fid dets l cnt ids i h]
      obtain ⟨k, h1, h2⟩ := ih _ (cnt + 1) (ids ++ [cnt + 1])
      refine ⟨k + 1, ?_, ?_⟩
      · rw [h1]
        simp [List.range']
      · rw [h2]; omega
    · rw [byteCreateStep_neg thresh fid dets l cnt ids i h]
      exact ih l cnt ids

theorem byteUpdate_ids (cfg : ByteCfg) (s : ByteState) (dets : List (Raw4 × Q)) :
    ∃ k, (byteUpdate cfg s dets).2.2 = List.range' (s.track_id_count + 1) k
      ∧ (byteUpdate cfg s dets).1.track_id_count = s.track_id_count + k := by
  unfold byteUpdate
  obtain ⟨k, h1, h2⟩ := byteCreateStep_ids cfg.track_thresh (s.frame_id + 1) _
    (byteAssociate _ _ _ (1/2)).2.1 _ s.track_id_count []
  exact ⟨k, by simpa using h1, by simpa using h2⟩

theorem chain'_range' : ∀ (n s : ℕ), (List.range' s n).Chain' (· < ·) := by
  intro n
  induction n with
  | zero => intro s; simp
  | succ n ih =>
    intro s
    have h := ih (s + 1)
    rw [List.range'_succ]
    cases n with
    | zero => simp
    | succ m =>
      rw [List.range'_succ] at h ⊢
      rw [List.chain'_cons]
      exact ⟨by omega, h⟩

theorem byteRunFrom_chain (cfg : ByteCfg) :
    ∀ (frames : List (List (Raw4 × Q))) (s : ByteState) (acc : List ℕ),
    (∀ i ∈ acc, i ≤ s.track_id_count) → acc.Chain' (· < ·) →
    (byteRunFrom cfg s acc frames).2.Chain' (· < ·)
      ∧ ∀ i ∈ (byteRunFrom cfg s acc frames).2,
        i ≤ (byteRunFrom cfg s acc frames).1.track_id_count := by
  intro frames
  induction frames with
  | nil => intro s acc hle hch; exact ⟨hch, hle⟩
  | cons f fs ih =>
    intro s acc hle hch
    obtain ⟨k, hids, hcnt⟩ := byteUpdate_ids cfg s f
    show (byteRunFrom cfg (byteUpdate cfg s f).1 (acc ++ (byteUpdate cfg s f).2.2) fs).2.Chain' _ ∧ _
    apply ih
    · intro i hi
      rw [hids] at hi
      rcases List.mem_append.mp hi with hi | hi
      · have := hle i hi
        omega
      · have := List.mem_range'_1.mp hi
        omega
    · rw [hids, List.chain'_append]
      refine ⟨hch, chain'_range' _ _, ?_⟩
      intro x hx y hy
      have hxa : x ∈ acc := List.mem_of_mem_getLast? hx
      have hxle := hle x hxa
      cases k with
      | zero => simp [List.range'] at hy
      | succ k =>
        have : y = s.track_id_count + 1 := by
          simp [List.range'] at hy
          omega
        omega

/-- Every track returned by `ByteTracker.update` has state `tracked` (the
return value is the freshly filtered `self.tracked_stracks`); the tracker
applies no hit-count gate. -/
theorem byteUpdate_output_state (cfg : ByteCfg) (s : ByteState)
    (dets : List (Raw4 × Q)) :
    ∀ t ∈ (byteUpdate cfg s dets).2.1, t.state = .tracked := by
  unfold byteUpdate
  intro t ht
  simpa using List.of_mem_filter ht

theorem byteConvert_scores (thresh : Q) (dets : List (Raw4 × Q)) :
    ∀ d ∈ byteConvert thresh dets, d.2 ≥ thresh := by
  intro d hd
  unfold byteConvert at hd
  rw [List.mem_filterMap] at hd
  obtain ⟨rd, _, hrd⟩ := hd
  by_cases h : rd.2 ≥ thresh
  · rw [if_pos h] at hrd
    cases hrd
    exact h
  · rw [if_neg h] at hrd
    cases hrd

/-- From `a ≤ b` conclude `¬ b < a`, through the cross-multiplied integer
comparisons that define the order on `Q`. -/
theorem Q.le_imp_not_lt {a b : Q} (h : a ≤ b) : ¬ b < a := fun hlt =>
  absurd (lt_of_le_of_lt
    (show a.num * b.den ≤ b.num * a.den from h)
    (show b.num * a.den < a.num * b.den from hlt))
    (lt_irrefl _)

/-- The `mot20` low-confidence list is always empty: the conversion loop has
already discarded every detection below `track_thresh`. -/
theorem byteLowDets_nil (cfg : ByteCfg) (dets : List (Raw4 × Q)) :
    byteLowDets cfg (byteConvert cfg.track_thresh dets) = [] := by
  unfold byteLowDets
  by_cases h : cfg.mot20 = true
  · rw [if_pos h]
    rw [List.filter_eq_nil_iff]
    intro d hd
    have hge := byteConvert_scores cfg.track_thresh dets d hd
    simp only [decide_eq_true_eq, not_and]
    intro hlt
    exact absurd hlt (Q.le_imp_not_lt hge)
  · rw [if_neg h]

/-- `byteConvert` drops nothing but low scores: it is exactly the score filter
followed by the coordinate-ordering reinterpretation (`tlbr` → `tlwh` when the
third and fourth coordinates strictly exceed the first two, raw `tlwh`
otherwise — never a rejection). -/
theorem byteConvert_eq_filter_map (thresh : Q) (dets : List (Raw4 × Q)) :
    byteConvert thresh dets
      = (dets.filter fun rd => rd.2 ≥ thresh).map fun rd =>
        (if rd.1.a < rd.1.c ∧ rd.1.b < rd.1.d then
          ⟨rd.1.a, rd.1.b, rd.1.c - rd.1.a, rd.1.d - rd.1.b⟩
         else ⟨rd.1.a, rd.1.b, rd.1.c, rd.1.d⟩, rd.2) := by
  induction dets with
  | nil => rfl
  | cons rd dets ih =>
    simp only [byteConvert, List.filterMap_cons] at ih ⊢
    by_cases h : rd.2 ≥ thresh
    · rw [if_pos h, List.filter_cons, if_pos (decide_eq_true h), List.map_cons]
      rw [ih]
    · rw [if_neg h, List.filter_cons,
        if_neg (by simpa using h), ih]

/-! ## The `filterpy` Kalman filter used by `OCTrack`
(src/ocsort_tracker.py `_init_kalman_filter`, `filterpy.kalman.KalmanFilter`)

`numpy`/`filterpy` float matrices are modelled as exact rational matrices.
`filterpy.kalman.KalmanFilter.predict` computes `x = F x`,
`P = F P Fᵀ + Q`; `update` computes the innovation, the gain
`K = P Hᵀ (H P Hᵀ + R)⁻¹` and the Joseph-form covariance
`P = (I − K H) P (I − K H)ᵀ + K R Kᵀ`. -/

/-- Row-major rational matrix (column vectors are `n × 1` matrices, as in
`filterpy`, whose state `x` has shape `(dim_x, 1)`). -/
abbrev Mat := List (List Q)

def matMul (a b : Mat) : Mat :=
  a.map fun row => (List.range (b.headD []).length).map fun j =>
    ((row.zip b).map fun rc => rc.1 * (rc.2.getD j 0)).foldl (· + ·) 0

def matAdd (a b : Mat) : Mat :=
  (a.zip b).map fun rr => (rr.1.zip rr.2).map fun xy => xy.1 + xy.2

def matSub (a b : Mat) : Mat :=
  (a.zip b).map fun rr => (rr.1.zip rr.2).map fun xy => xy.1 - xy.2

def matTrans (a : Mat) : Mat :=
  (List.range (a.headD []).length).map fun j => a.map fun row => row.getD j 0

def matScale (c : Q) (a : Mat) : Mat := a.map (List.map (c * ·))

def matId (n : ℕ) : Mat :=
  (List.range n).map fun i => (List.range n).map fun j => if i = j then (1 : Q) else 0

/-- Laplace expansion along the first row, with structural fuel (the number of
rows). -/
def matDetF : ℕ → Mat → Q
  | 0, _ => 1
  | _ + 1, [] => 1
  | fuel + 1, r :: rest =>
    ((List.range r.length).map fun j =>
      (if j % 2 = 0 then (1 : Q) else -1) * r.getD j 0 *
        matDetF fuel (rest.map fun row => row.eraseIdx j)).foldl (· + ·) 0

def matDet (m : Mat) : Q := matDetF m.length m

/-- Delete row `i` and column `j`. -/
def matDrop (m : Mat) (i j : ℕ) : Mat :=
  (m.eraseIdx i).map fun row => row.eraseIdx j

/-- Adjugate (transpose of cofactors). -/
def matAdj (m : Mat) : Mat :=
  (List.range m.length).map fun i => (List.range m.length).map fun j =>
    (if (i + j) % 2 = 0 then (1 : Q) else -1) * matDet (matDrop m j i)

/-- `np.linalg.inv`, exact on invertible matrices; only applied to the
innovation covariance `S`, which is positive definite on every modelled
path. -/
def matInv (m : Mat) : Mat := matScale (1 / matDet m) (matAdj m)

/-- The constant-velocity transition matrix `F` of `_init_kalman_filter`. -/
def kfF : Mat :=
  [[1, 0, 0, 0, 1, 0, 0, 0],
   [0, 1, 0, 0, 0, 1, 0, 0],
   [0, 0, 1, 0, 0, 0, 1, 0],
   [0, 0, 0, 1, 0, 0, 0, 1],
   [0, 0, 0, 0, 1, 0, 0, 0],
   [0, 0, 0, 0, 0, 1, 0, 0],
   [0, 0, 0, 0, 0, 0, 1, 0],
   [0, 0, 0, 0, 0, 0, 0, 1]]

/-- The measurement matrix `H` (observe position and size). -/
def kfH : Mat :=
  [[1, 0, 0, 0, 0, 0, 0, 0],
   [0, 1, 0, 0, 0, 0, 0, 0],
   [0, 0, 1, 0, 0, 0, 0, 0],
   [0, 0, 0, 1, 0, 0, 0, 0]]

/-- Process noise `Q *= 0.01` (from `filterpy`'s identity default). -/
def kfQn : Mat := matScale (1/100) (matId 8)

/-- Measurement noise `R *= 10`. -/
def kfR : Mat := matScale 10 (matId 4)

/-- Initial covariance `P *= 1000`. -/
def kfP0 : Mat := matScale 1000 (matId 8)

structure KF where
  x : Mat
  P : Mat
deriving DecidableEq, Repr

instance : Inhabited KF := ⟨⟨[], []⟩⟩

/-- `x[:4] = tlwh.reshape((4, 1))` over `filterpy`'s zero-initialized state. -/
def kfInit (tlwh : Tlwh) : KF :=
  ⟨[[tlwh.x], [tlwh.y], [tlwh.w], [tlwh.h], [0], [0], [0], [0]], kfP0⟩

def kfPredict (kf : KF) : KF :=
  ⟨matMul kfF kf.x, matAdd (matMul (matMul kfF kf.P) (matTrans kfF)) kfQn⟩

def kfUpdate (z : Mat) (kf : KF) : KF :=
  let y := matSub z (matMul kfH kf.x)
  let PHT := matMul kf.P (matTrans kfH)
  let S := matAdd (matMul kfH PHT) kfR
  let K := matMul PHT (matInv S)
  let x' := matAdd kf.x (matMul K y)
  let IKH := matSub (matId 8) (matMul K kfH)
  ⟨x', matAdd (matMul (matMul IKH kf.P) (matTrans IKH))
        (matMul (matMul K kfR) (matTrans K))⟩

/-- Entry `x[i]` of the column state vector. -/
def KF.xE (kf : KF) (i : ℕ) : Q := (kf.x.getD i []).getD 0 0

/-- `x[4:6] = avg_velocity.reshape((2, 1))`. -/
def KF.setVel (kf : KF) (vx vy : Q) : KF :=
  { kf with x := modifyAt 5 (fun _ => [vy]) (modifyAt 4 (fun _ => [vx]) kf.x) }

/-! ## `OCTrack` (src/ocsort_tracker.py)

Appearance descriptors (cv2 HSV colour histograms of image crops) are opaque
to the tracking logic: the model represents a histogram by an abstract handle
`Desc := ℕ` and takes the Bhattacharyya distance computed by
`cv2.compareHist` as an oracle `bhat : Desc → Desc → Q`.  (The source skips a
histogram pair whose lengths differ; an oracle value with `1 - bhat ≤ 0`
models a skipped pair, since contributions enter only through a `max` that
starts at `0`.)

Fields never read on any code path are omitted from the `OCTrack` record: the
`velocity_history`, `history` and `confidence_history` deques, the wall-clock
stamps `first_seen`/`last_seen`/`last_appearance_update`, and
`color_hist_cache`. -/

/-- Opaque handle to a cv2 colour histogram. -/
abbrev Desc := ℕ

structure OCTrack where
  tlwh : Tlwh
  score : Q
  track_id : Option ℕ
  is_activated : Bool
  state : TState
  frame_id : ℕ
  tracklet_len : ℕ
  start_frame : ℕ
  kf : KF
  observations : List (Tlwh × Q)
  observation_count : ℕ
  time_since_update : ℕ
  occlusion_count : ℕ
  max_occlusion_frames : ℕ
  appearance_features : List Desc
deriving DecidableEq, Repr

instance : Inhabited OCTrack :=
  ⟨⟨default, 0, none, false, .new, 0, 0, 0, default, [], 0, 0, 0, 30, []⟩⟩

/-- `OCTrack.update_appearance`: push the crop's histogram, keep the last 5;
a missing or degenerate crop (`None`, empty, or a failed extraction) is a
no-op. -/
def OCTrack.pushApp (crop : Option Desc) (t : OCTrack) : OCTrack :=
  match crop with
  | none => t
  | some a =>
    let fs := t.appearance_features ++ [a]
    { t with appearance_features :=
        if fs.length > 5 then fs.drop (fs.length - 5) else fs }

/-- `OCTrack.__init__(tlwh, score, image_crop)`: fresh Kalman state, empty
histories, `max_occlusion_frames = 30`, appearance seeded from the crop when
one is supplied. -/
def OCTrack.mk0 (tlwh : Tlwh) (score : Q) (crop : Option Desc) : OCTrack :=
  OCTrack.pushApp crop
    ⟨tlwh, score, none, false, .new, 0, 0, 0, kfInit tlwh, [], 0, 0, 0, 30, []⟩

/-- `OCTrack.calculate_appearance_similarity`: `0` if either side has no
features, otherwise the maximum of `1 - bhattacharyya` over the last two
features of each side. -/
def appSim (bhat : Desc → Desc → Q) (mine other : List Desc) : Q :=
  if mine.isEmpty ∨ other.isEmpty then 0
  else
    (mine.drop (mine.length - 2)).foldl
      (fun acc f1 =>
        (other.drop (other.length - 2)).foldl
          (fun acc f2 => qmax acc (1 - bhat f1 f2)) acc)
      0

/-- The velocity computed by `OCTrack._apply_oos`, when any: the average
finite-difference velocity over the last 5 observations (consecutive pairs
with positive wall-clock `dt`). -/
def oosVel (obs : List (Tlwh × Q)) : Option (Q × Q) :=
  if obs.length < 2 then none
  else
    let recent := obs.drop (obs.length - 5)
    if 2 ≤ recent.length then
      let velocities := (recent.zip recent.tail).filterMap fun pc =>
        let dt := pc.2.2 - pc.1.2
        if 0 < dt then
          some ((pc.2.1.x - pc.1.1.x) / dt, (pc.2.1.y - pc.1.1.y) / dt)
        else none
      if velocities.isEmpty then none
      else
        let n : Q := ⟨(velocities.length : ℤ), 1⟩
        some ((velocities.map Prod.fst).foldl (· + ·) 0 / n,
              (velocities.map Prod.snd).foldl (· + ·) 0 / n)
    else none

/-- `OCTrack._apply_oos`: inject the smoothed velocity into `x[4:6]` (a no-op
when fewer than two usable observations exist). -/
def applyOOS (obs : List (Tlwh × Q)) (kf : KF) : KF :=
  match oosVel obs with
  | none => kf
  | some v => kf.setVel v.1 v.2

/-- `OCTrack.predict()`: Kalman predict, observation-centric smoothing when
more than one observation exists, box taken from the filter state, staleness
bump with the `lost` transition and occlusion-counter increment once
`time_since_update` passes 1. -/
def OCTrack.predictT (t : OCTrack) : OCTrack :=
  let kf1 := kfPredict t.kf
  let kf2 := if 1 < t.observations.length then applyOOS t.observations kf1 else kf1
  let tlwh' : Tlwh := ⟨kf2.xE 0, kf2.xE 1, kf2.xE 2, kf2.xE 3⟩
  let tsu := t.time_since_update + 1
  if 1 < tsu then
    { t with
      kf := kf2
      tlwh := tlwh'
      time_since_update := tsu
      state := .lost
      occlusion_count := t.occlusion_count + 1 }
  else
    { t with
      kf := kf2
      tlwh := tlwh'
      time_since_update := tsu }

/-- A converted detection of `OCSort.update` (the detection `OCTrack` object:
only its `tlwh`, `score`, centre and appearance features are ever read, plus
the crop taken from `det.tlbr` when appearance is refreshed).  `descInit` is
the histogram of the crop extracted from the *raw* detection box at
construction; `descTlbr` the histogram of the crop extracted from the
converted `tlbr` at match/re-id/creation time (they coincide for `tlbr`-form
input). -/
structure OCDet where
  tlwh : Tlwh
  score : Q
  descInit : Option Desc
  descTlbr : Option Desc
deriving DecidableEq, Repr

instance : Inhabited OCDet := ⟨⟨default, 0, none, none⟩⟩

/-- The detection `OCTrack`'s appearance feature list. -/
def OCDet.features (d : OCDet) : List Desc :=
  match d.descInit with
  | some a => [a]
  | none => []

/-- `OCTrack.update(new_track, frame_id)`: adopt box and score, reset
staleness and occlusion counters, Kalman measurement update, record the
observation (`(tlwh, time.time())`, deque maxlen 50), bump the hit counter,
`new`/`lost` → `tracked`, activate. -/
def OCTrack.updateT (det : OCDet) (fid : ℕ) (now : Q) (t : OCTrack) : OCTrack :=
  let obs := t.observations ++ [(det.tlwh, now)]
  { t with
    tlwh := det.tlwh
    score := det.score
    frame_id := fid
    tracklet_len := t.tracklet_len + 1
    time_since_update := 0
    occlusion_count := 0
    kf := kfUpdate [[det.tlwh.x], [det.tlwh.y], [det.tlwh.w], [det.tlwh.h]] t.kf
    observations := if obs.length > 50 then obs.drop (obs.length - 50) else obs
    observation_count := t.observation_count + 1
    state := if t.state = .new then .tracked
             else if t.state = .lost then .tracked else t.state
    is_activated := true }

/-- `OCTrack.activate(frame_id, track_id)`. -/
def OCTrack.activateT (fid tid : ℕ) (t : OCTrack) : OCTrack :=
  { t with
    track_id := some tid
    start_frame := fid
    frame_id := fid
    is_activated := true
    state := .tracked }

/-- `OCTrack.mark_lost()`. -/
def OCTrack.markLostT (t : OCTrack) : OCTrack := { t with state := .lost }

/-- `OCTrack.mark_removed()`. -/
def OCTrack.markRemovedT (t : OCTrack) : OCTrack := { t with state := .removed }

/-! ### Exact comparators for the re-identification scores

`OCSort.update` compares `combined_sim = appearance_sim * 0.8 +
(1 - min(pos_distance/200, 1)) * 0.2` against `0.6` and against the running
best, where `pos_distance` is a Euclidean `math.sqrt`.  Candidates pass the
gate `pos_distance < 200`, so on every compared value
`combined = 0.8·sim + 0.2 − 0.001·√distSq`.  The comparisons are decided
exactly on the squared distances by isolating the square roots and squaring
with the appropriate sign analysis. -/

/-- Squared centre distance (`_calculate_position_distance` squares under the
root). -/
def cDistSq (p1 p2 : Q × Q) : Q :=
  (p1.1 - p2.1) * (p1.1 - p2.1) + (p1.2 - p2.2) * (p1.2 - p2.2)

/-- Decides `√q < c` for `q ≥ 0`. -/
def sqrtLtQ (q c : Q) : Bool := decide (0 < c) && decide (q < c * c)

/-- Decides `√q₁ − √q₂ < c` for `q₁, q₂ ≥ 0`. -/
def sqrtSubLt (q₁ q₂ c : Q) : Bool :=
  if 0 ≤ c then
    -- √q₁ < c + √q₂  ⟺  q₁ − q₂ − c² < 2c√q₂
    let L := q₁ - q₂ - c * c
    decide (L < 0) || decide (L * L < 4 * (c * c) * q₂)
  else
    -- √q₁ + (−c) < √q₂  ⟺  0 < M ∧ 4c²q₁ < M²  with  M = q₂ − q₁ − c²
    let M := q₂ - q₁ - c * c
    decide (0 < M) && decide (4 * (c * c) * q₁ < M * M)

/-- Decides `combined_sim > 0.6`, i.e. `√distSq < 800·sim − 400`. -/
def gtPoint6 (sim distSq : Q) : Bool := sqrtLtQ distSq (800 * sim - 400)

/-- Decides `combined₁ > combined₂`, i.e. `√q₁ − √q₂ < 800·(s₁ − s₂)`. -/
def scoreGt (s₁ q₁ s₂ q₂ : Q) : Bool := sqrtSubLt q₁ q₂ (800 * (s₁ - s₂))

/-! ## `OCSort` (src/ocsort_tracker.py)

Python keeps tracks in `self.tracks` and `self.disappeared_tracks` by object
reference; re-identification appends an object that may still sit in another
pool slot, so aliasing is observable.  The model therefore keeps a heap of
every `OCTrack` ever allocated (`OCState.heap`, append-only) and lets the
pools hold heap indices; mutating a track mutates its heap cell. -/

/-- `OCSort` constructor parameters.  `delta_t`, `asso_func` and `inertia`
are accepted by the constructor but never read. -/
structure OCCfg where
  det_thresh : Q
  max_age : ℕ
  min_hits : ℕ
  iou_threshold : Q
  use_byte : Bool
deriving Repr

/-- The constructor defaults
(`det_thresh=0.6, max_age=50, min_hits=3, iou_threshold=0.3, use_byte=False`). -/
def ocDefault : OCCfg := ⟨3/5, 50, 3, 3/10, false⟩

structure OCState where
  frame_id : ℕ
  heap : List OCTrack
  tracks : List ℕ
  disappeared_tracks : List ℕ
  track_id_count : ℕ
  total_tracks_created : ℕ
  reid_matches : ℕ
deriving DecidableEq, Repr

/-- Fresh `OCSort(...)` state. -/
def ocInit : OCState := ⟨0, [], [], [], 0, 0, 0⟩

/-- One raw detection handed to `OCSort.update`: the 4-number box, the score,
and the two crop histograms (present when a frame is supplied and the
extraction succeeds). -/
structure RawOCDet where
  box : Raw4
  score : Q
  descInit : Option Desc
  descTlbr : Option Desc
deriving DecidableEq, Repr

/-- The detection-conversion loop of `OCSort.update` (same coordinate
disambiguation as `ByteTracker`, and only detections with
`score >= det_thresh` survive). -/
def ocConvert (thresh : Q) (dets : List RawOCDet) : List OCDet :=
  dets.filterMap fun rd =>
    let tlwh : Tlwh :=
      if rd.box.a < rd.box.c ∧ rd.box.b < rd.box.d then
        ⟨rd.box.a, rd.box.b, rd.box.c - rd.box.a, rd.box.d - rd.box.b⟩
      else ⟨rd.box.a, rd.box.b, rd.box.c, rd.box.d⟩
    if rd.score ≥ thresh then some ⟨tlwh, rd.score, rd.descInit, rd.descTlbr⟩
    else none

/-- The `use_byte` low-score split `score < det_thresh and score >= 0.1`,
taken over the already-converted candidates. -/
def ocLowDets (cfg : OCCfg) (detected : List OCDet) : List OCDet :=
  if cfg.use_byte then
    detected.filter fun t => t.score < cfg.det_thresh ∧ t.score ≥ 1/10
  else []

/-- The unmatched-track branch of `OCSort.update`: `mark_lost()` while the
occlusion counter is below `max_occlusion_frames`, else `mark_removed()` and,
when the hit count reaches `min_hits`, admission to the disappeared pool. -/
def ocUnmatchedStep (minHits : ℕ) (tracks : List ℕ)
    (acc : List OCTrack × List ℕ) (i : ℕ) : List OCTrack × List ℕ :=
  let r := tracks.getD i 0
  let t := acc.1.getD r default
  if t.occlusion_count < t.max_occlusion_frames then
    (modifyAt r OCTrack.markLostT acc.1, acc.2)
  else
    (modifyAt r OCTrack.markRemovedT acc.1,
     if t.observation_count ≥ minHits then acc.2 ++ [r] else acc.2)

/-- The candidate scan of the re-identification loop: over the disappeared
pool in order, gate on centre distance below 200, score
`appearance·0.8 + (1 − min(dist/200, 1))·0.2`, and keep the first strict
maximum among candidates exceeding `0.6`.  (The running best starts at plain
`0`; since an accepted score must exceed `0.6 > 0`, the first-candidate test
reduces to `gtPoint6`.)  Returns the best candidate's heap index with its
appearance similarity and squared distance. -/
def ocReidBest (bhat : Desc → Desc → Q) (heap : List OCTrack) (det : OCDet)
    (pool : List ℕ) : Option (ℕ × Q × Q) :=
  pool.foldl
    (fun best r =>
      let dt := heap.getD r default
      let dSq := cDistSq det.tlwh.center dt.tlwh.center
      if dSq < 40000 then
        let sim := appSim bhat dt.appearance_features det.features
        if ((match best with
            | none => true
            | some b => scoreGt sim dSq b.2.1 b.2.2) && gtPoint6 sim dSq) then
          some (r, sim, dSq)
        else best
      else best)
    none

structure ReidAcc where
  heap : List OCTrack
  tracks : List ℕ
  disappeared : List ℕ
  reid_matches : ℕ
  remaining : List ℕ
deriving DecidableEq, Repr

/-- One detection of the re-identification loop.  On acceptance the candidate
is updated (which keeps its identifier, resets the occlusion counter and sets
`tracked`), its appearance refreshed, and its reference appended to
`self.tracks`; `self.disappeared_tracks.remove(best_match)` then deletes the
pool's *first* entry, because the field-less `@dataclass` on `OCTrack`
generates an `__eq__` that compares empty field tuples, making every two
`OCTrack` instances equal.  Detections with no acceptable candidate are
collected for new-track creation. -/
def ocReidStep (bhat : Desc → Desc → Q) (fid : ℕ) (now : Q)
    (getDet : ℕ → OCDet) (acc : ReidAcc) (detIdx : ℕ) : ReidAcc :=
  let det := getDet detIdx
  match ocReidBest bhat acc.heap det acc.disappeared with
  | some rsq =>
    { acc with
      heap := modifyAt rsq.1
        (fun t => OCTrack.pushApp det.descTlbr
          { OCTrack.updateT det fid now t with
            state := .tracked
            occlusion_count := 0 }) acc.heap
      tracks := acc.tracks ++ [rsq.1]
      disappeared := acc.disappeared.drop 1
      reid_matches := acc.reid_matches + 1 }
  | none => { acc with remaining := acc.remaining ++ [detIdx] }

structure CreateAcc where
  heap : List OCTrack
  tracks : List ℕ
  cnt : ℕ
  ids : List ℕ
deriving DecidableEq, Repr

/-- One step of the new-track creation loop of `OCSort.update`: a leftover
detection whose score clears `det_thresh` is allocated as a fresh `OCTrack`
(no crop at construction), activated with `self._next_id()`, given the
`det.tlbr` crop's appearance, and appended to `self.tracks`. -/
def ocCreateStep (thresh : Q) (fid : ℕ) (getDet : ℕ → OCDet)
    (acc : CreateAcc) (i : ℕ) : CreateAcc :=
  let det := getDet i
  if det.score ≥ thresh then
    { heap := acc.heap ++ [OCTrack.pushApp det.descTlbr
        (OCTrack.activateT fid (acc.cnt + 1) (OCTrack.mk0 det.tlwh det.score none))]
      tracks := acc.tracks ++ [acc.heap.length]
      cnt := acc.cnt + 1
      ids := acc.ids ++ [acc.cnt + 1] }
  else acc

/-- `OCSort.update`.  `now` is the value `time.time()` returns during this
frame.  Returns the new state, the returned track references
(`state == 'tracked' and observation_count >= min_hits`), and — as ghost
output for the identifier claims — the ids assigned this frame. -/
def ocUpdate (cfg : OCCfg) (bhat : Desc → Desc → Q) (s : OCState)
    (dets : List RawOCDet) (now : Q) : OCState × List ℕ × List ℕ :=
  let fid := s.frame_id + 1
  let detected := ocConvert cfg.det_thresh dets
  let high := detected.filter fun t => t.score ≥ cfg.det_thresh
  let low := ocLowDets cfg detected
  -- predict every track in `self.tracks`
  let heap1 := s.tracks.foldl (fun h r => modifyAt r OCTrack.predictT h) s.heap
  -- first association
  let m1 := hungarianAssociate
    (fun t d => iou ((heap1.getD (s.tracks.getD t 0) default).tlwh.tlbr)
      ((high.getD d default).tlwh.tlbr))
    s.tracks.length high.length cfg.iou_threshold
  -- update matched tracks (and their appearance, when a crop exists)
  let heap2 := m1.1.foldl
    (fun h p => modifyAt (s.tracks.getD p.1 0)
      (fun t => OCTrack.pushApp (high.getD p.2 default).descTlbr
        (OCTrack.updateT (high.getD p.2 default) fid now t)) h)
    heap1
  -- unmatched tracks age into lost/removed (and into the disappeared pool)
  let um := m1.2.2.foldl (ocUnmatchedStep cfg.min_hits s.tracks)
    (heap2, s.disappeared_tracks)
  -- ByteTrack-style second association (`low` is always empty: `ocLowDets_nil`)
  let stage2 :=
    if cfg.use_byte ∧ ¬ low.isEmpty then
      let udl := m1.2.1.map (fun i => high.getD i default) ++ low
      let lostRefs := s.tracks.filter fun r => (um.1.getD r default).state = .lost
      let m2 := hungarianAssociate
        (fun t d => iou ((um.1.getD (lostRefs.getD t 0) default).tlwh.tlbr)
          ((udl.getD d default).tlwh.tlbr))
        lostRefs.length udl.length (1/2)
      let heap4 := m2.1.foldl
        (fun h p => modifyAt (lostRefs.getD p.1 0)
          (fun t => OCTrack.pushApp (udl.getD p.2 default).descTlbr
            { OCTrack.updateT (udl.getD p.2 default) fid now t with
              state := .tracked }) h)
        um.1
      (heap4, m2.2.1)
    else (um.1, m1.2.1)
  -- the source indexes leftover detections into `high ++ low`, although in
  -- the `use_byte` branch they index `unmatched_dets_low` (a latent mapping
  -- bug, reproduced as written)
  let getDet : ℕ → OCDet := fun i =>
    if i < high.length then high.getD i default
    else low.getD (i - high.length) default
  -- re-identification against the disappeared pool
  let reid := stage2.2.foldl (ocReidStep bhat fid now getDet)
    ⟨stage2.1, s.tracks, um.2, s.reid_matches, []⟩
  -- new tracks for the remaining detections
  let created := reid.remaining.foldl (ocCreateStep cfg.det_thresh fid getDet)
    ⟨reid.heap, reid.tracks, s.track_id_count, []⟩
  -- cleanup and return
  let tracks' := created.tracks.filter fun r =>
    (created.heap.getD r default).state ≠ .removed
  let disappeared' := reid.disappeared.filter fun r =>
    fid - (created.heap.getD r default).frame_id ≤ cfg.max_age
  let output := tracks'.filter fun r =>
    (created.heap.getD r default).state = .tracked
      ∧ (created.heap.getD r default).observation_count ≥ cfg.min_hits
  (⟨fid, created.heap, tracks', disappeared', created.cnt,
    s.total_tracks_created + created.ids.length, reid.reid_matches⟩,
   output, created.ids)

/-- Run `OCSort` from a given state; each frame is a detection list plus the
wall-clock value of this frame's `time.time()` calls. -/
def ocRunFrom (cfg : OCCfg) (bhat : Desc → Desc → Q) :
    OCState → List ℕ → List (List RawOCDet × Q) → OCState × List ℕ
  | s, acc, [] => (s, acc)
  | s, acc, f :: fs =>
    let r := ocUpdate cfg bhat s f.1 f.2
    ocRunFrom cfg bhat r.1 (acc ++ r.2.2) fs

/-- Run `OCSort` on a frame sequence from a fresh state. -/
def ocRun (cfg : OCCfg) (bhat : Desc → Desc → Q)
    (frames : List (List RawOCDet × Q)) : OCState × List ℕ :=
  ocRunFrom cfg bhat ocInit [] frames

/-- The lifecycle state of the heap cell `r` (`none` before allocation). -/
def OCState.cellState (s : OCState) (r : ℕ) : Option TState :=
  (s.heap.drop r).head?.map OCTrack.state


/-! ### Covariance-erased evaluation of `OCSort` runs

None of the run facts proved below depends on the Kalman covariance `P`: only
`x` feeds the predicted boxes, and the lifecycle logic reads plain counters.
`OCTrack.sansP` erases a track's covariance, `OCTrack.sansKF` its whole
Kalman state; `OCState.lite` and `OCState.skel` apply them across the heap.
The congruence lemmas below show that `ocUpdate` respects `lite` on
detection-free frames and respects `skel` on any frame entered with an empty
active pool, so a long run can be machine-evaluated on covariance-erased
boundary literals. -/

/-- Erase a track's Kalman covariance. -/
def OCTrack.sansP (t : OCTrack) : OCTrack := { t with kf := ⟨t.kf.x, []⟩ }

/-- Erase a track's whole Kalman state. -/
def OCTrack.sansKF (t : OCTrack) : OCTrack := { t with kf := ⟨[], []⟩ }

/-- Erase every Kalman covariance of a state. -/
def OCState.lite (s : OCState) : OCState := { s with heap := s.heap.map OCTrack.sansP }

/-- Erase every Kalman state of a state. -/
def OCState.skel (s : OCState) : OCState := { s with heap := s.heap.map OCTrack.sansKF }

theorem sansP_default : OCTrack.sansP default = default := rfl

theorem sansKF_default : OCTrack.sansKF default = default := rfl

theorem sansKF_sansP (t : OCTrack) : t.sansP.sansKF = t.sansKF := rfl

theorem skel_of_lite (s : OCState) : s.lite.skel = s.skel := by
  simp [OCState.skel, OCState.lite, List.map_map, Function.comp_def, sansKF_sansP]

theorem getD_map_fix {α : Type} (g : α → α) (d : α) (hd : g d = d) :
    ∀ (l : List α) (n : ℕ), (l.map g).getD n d = g (l.getD n d) := by
  intro l
  induction l with
  | nil => intro n; simp [hd]
  | cons a t ih =>
    intro n
    cases n with
    | zero => simp
    | succ n => simpa using ih n

/-- `sansP`-equal heaps have `sansP`-equal cells. -/
theorem liteRel_getD {h₁ h₂ : List OCTrack}
    (e : h₁.map OCTrack.sansP = h₂.map OCTrack.sansP) (r : ℕ) :
    OCTrack.sansP (h₁.getD r default) = OCTrack.sansP (h₂.getD r default) := by
  have h : (h₁.map OCTrack.sansP).getD r default
      = (h₂.map OCTrack.sansP).getD r default := congrArg (fun l => l.getD r default) e
  rwa [getD_map_fix _ _ sansP_default, getD_map_fix _ _ sansP_default] at h

/-- `sansKF`-equal heaps have `sansKF`-equal cells. -/
theorem skelRel_getD {h₁ h₂ : List OCTrack}
    (e : h₁.map OCTrack.sansKF = h₂.map OCTrack.sansKF) (r : ℕ) :
    OCTrack.sansKF (h₁.getD r default) = OCTrack.sansKF (h₂.getD r default) := by
  have h : (h₁.map OCTrack.sansKF).getD r default
      = (h₂.map OCTrack.sansKF).getD r default := congrArg (fun l => l.getD r default) e
  rwa [getD_map_fix _ _ sansKF_default, getD_map_fix _ _ sansKF_default] at h

/-- In-place modification respects an erasure `g` under which `f` is a
congruence. -/
theorem map_modifyAt_congr {α : Type} (g f : α → α)
    (hfg : ∀ x y, g x = g y → g (f x) = g (f y)) :
    ∀ (n : ℕ) (l₁ l₂ : List α), l₁.map g = l₂.map g →
      (modifyAt n f l₁).map g = (modifyAt n f l₂).map g := by
  intro n
  induction n with
  | zero =>
    intro l₁ l₂ e
    cases l₁ with
    | nil => cases l₂ with
      | nil => rfl
      | cons b t => simp at e
    | cons a t =>
      cases l₂ with
      | nil => simp at e
      | cons b u =>
        simp only [List.map_cons, List.cons.injEq] at e
        simp [modifyAt, hfg a b e.1, e.2]
  | succ n ih =>
    intro l₁ l₂ e
    cases l₁ with
    | nil => cases l₂ with
      | nil => rfl
      | cons b t => simp at e
    | cons a t =>
      cases l₂ with
      | nil => simp at e
      | cons b u =>
        simp only [List.map_cons, List.cons.injEq] at e
        simp [modifyAt, e.1, ih t u e.2]

/-- `OCTrack.predict` reads no covariance entry into any retained field. -/
theorem predictT_sansP (t : OCTrack) :
    t.sansP.predictT.sansP = t.predictT.sansP := by
  have hobs : t.sansP.observations = t.observations := rfl
  have htsu : t.sansP.time_since_update = t.time_since_update := rfl
  unfold OCTrack.predictT
  rw [hobs, htsu]
  cases hv : oosVel t.observations with
  | none =>
    by_cases ho : 1 < t.observations.length <;>
      by_cases hc : 1 < t.time_since_update + 1 <;>
      simp [applyOOS, hv, OCTrack.sansP, ho, hc, KF.xE, kfPredict]
  | some v =>
    by_cases ho : 1 < t.observations.length <;>
      by_cases hc : 1 < t.time_since_update + 1 <;>
      simp [applyOOS, hv, OCTrack.sansP, ho, hc, KF.xE, KF.setVel, kfPredict]

theorem predictT_congr : ∀ x y : OCTrack, x.sansP = y.sansP →
    x.predictT.sansP = y.predictT.sansP := by
  intro x y e
  rw [← predictT_sansP x, ← predictT_sansP y, e]

theorem markLostT_congr : ∀ x y : OCTrack, x.sansP = y.sansP →
    x.markLostT.sansP = y.markLostT.sansP := by
  intro x y e
  have hx : x.markLostT.sansP = x.sansP.markLostT := rfl
  have hy : y.markLostT.sansP = y.sansP.markLostT := rfl
  rw [hx, hy, e]

theorem markRemovedT_congr : ∀ x y : OCTrack, x.sansP = y.sansP →
    x.markRemovedT.sansP = y.markRemovedT.sansP := by
  intro x y e
  have hx : x.markRemovedT.sansP = x.sansP.markRemovedT := rfl
  have hy : y.markRemovedT.sansP = y.sansP.markRemovedT := rfl
  rw [hx, hy, e]

theorem ocConvert_nil (th : Q) : ocConvert th [] = [] := rfl

theorem ocConvert_scores (th : Q) (dets : List RawOCDet) :
    ∀ d ∈ ocConvert th dets, d.score ≥ th := by
  intro d hd
  unfold ocConvert at hd
  rw [List.mem_filterMap] at hd
  obtain ⟨rd, _, hrd⟩ := hd
  by_cases h : rd.score ≥ th
  · simp only [if_pos h] at hrd
    cases hrd
    exact h
  · simp only [if_neg h] at hrd
    cases hrd

/-- The `use_byte` low-confidence list is always empty: the conversion loop
has already discarded every detection below `det_thresh`. -/
theorem ocLowDets_convert (cfg : OCCfg) (dets : List RawOCDet) :
    ocLowDets cfg (ocConvert cfg.det_thresh dets) = [] := by
  unfold ocLowDets
  by_cases h : cfg.use_byte = true
  · rw [if_pos h, List.filter_eq_nil_iff]
    intro d hd
    have hge := ocConvert_scores cfg.det_thresh dets d hd
    simp only [decide_eq_true_eq, not_and]
    intro hlt
    exact absurd hlt (Q.le_imp_not_lt hge)
  · rw [if_neg h]

theorem ocLowDets_of_nil (cfg : OCCfg) : ocLowDets cfg [] = [] := by
  unfold ocLowDets
  by_cases h : cfg.use_byte = true
  · rw [if_pos h]; rfl
  · rw [if_neg h]

theorem hungarianAssociate_nD0 (m : ℕ → ℕ → Q) (nT : ℕ) (thresh : Q) :
    hungarianAssociate m nT 0 thresh = ([], [], List.range nT) := by
  unfold hungarianAssociate
  rw [if_pos (Or.inr rfl)]
  rfl

theorem hungarianAssociate_nT0 (m : ℕ → ℕ → Q) (nD : ℕ) (thresh : Q) :
    hungarianAssociate m 0 nD thresh = ([], List.range nD, []) := by
  unfold hungarianAssociate
  rw [if_pos (Or.inl rfl)]
  rfl

/-- The state left by `OCSort.update` on a detection-free frame: predict,
mark every track lost/removed, prune. -/
def ocStepNil (cfg : OCCfg) (s : OCState) : OCState :=
  let fid := s.frame_id + 1
  let heap1 := s.tracks.foldl (fun h r => modifyAt r OCTrack.predictT h) s.heap
  let um := (List.range s.tracks.length).foldl
    (ocUnmatchedStep cfg.min_hits s.tracks) (heap1, s.disappeared_tracks)
  ⟨fid, um.1,
   s.tracks.filter fun r => (um.1.getD r default).state ≠ .removed,
   um.2.filter fun r => fid - (um.1.getD r default).frame_id ≤ cfg.max_age,
   s.track_id_count, s.total_tracks_created, s.reid_matches⟩

theorem ocUpdate_nil (cfg : OCCfg) (bhat : Desc → Desc → Q) (s : OCState)
    (now : Q) : (ocUpdate cfg bhat s [] now).1 = ocStepNil cfg s := by
  simp only [ocUpdate, ocStepNil, ocConvert_nil, ocLowDets_of_nil,
    List.filter_nil, List.length_nil, hungarianAssociate_nD0, List.foldl_nil,
    List.isEmpty_nil, not_true, and_false, if_false, List.length_nil,
    List.nil_append, Nat.add_zero]

theorem sansP_state (t : OCTrack) : (OCTrack.sansP t).state = t.state := rfl

theorem sansP_frame_id (t : OCTrack) : (OCTrack.sansP t).frame_id = t.frame_id := rfl

theorem sansP_occ (t : OCTrack) :
    (OCTrack.sansP t).occlusion_count = t.occlusion_count := rfl

theorem sansP_maxOcc (t : OCTrack) :
    (OCTrack.sansP t).max_occlusion_frames = t.max_occlusion_frames := rfl

theorem sansP_obsCount (t : OCTrack) :
    (OCTrack.sansP t).observation_count = t.observation_count := rfl

theorem umStep_congr (minHits : ℕ) (tracks : List ℕ) (i : ℕ)
    (a₁ a₂ : List OCTrack × List ℕ)
    (h1 : a₁.1.map OCTrack.sansP = a₂.1.map OCTrack.sansP) (h2 : a₁.2 = a₂.2) :
    (ocUnmatchedStep minHits tracks a₁ i).1.map OCTrack.sansP
      = (ocUnmatchedStep minHits tracks a₂ i).1.map OCTrack.sansP
    ∧ (ocUnmatchedStep minHits tracks a₁ i).2 = (ocUnmatchedStep minHits tracks a₂ i).2 := by
  have hc := liteRel_getD h1 (tracks.getD i 0)
  have hocc : (a₁.1.getD (tracks.getD i 0) default).occlusion_count
      = (a₂.1.getD (tracks.getD i 0) default).occlusion_count :=
    (sansP_occ _).symm.trans ((congrArg OCTrack.occlusion_count hc).trans (sansP_occ _))
  have hmax : (a₁.1.getD (tracks.getD i 0) default).max_occlusion_frames
      = (a₂.1.getD (tracks.getD i 0) default).max_occlusion_frames :=
    (sansP_maxOcc _).symm.trans ((congrArg OCTrack.max_occlusion_frames hc).trans (sansP_maxOcc _))
  have hobc : (a₁.1.getD (tracks.getD i 0) default).observation_count
      = (a₂.1.getD (tracks.getD i 0) default).observation_count :=
    (sansP_obsCount _).symm.trans ((congrArg OCTrack.observation_count hc).trans (sansP_obsCount _))
  simp only [ocUnmatchedStep, hocc, hmax, hobc, h2]
  by_cases hlt : (a₂.1.getD (tracks.getD i 0) default).occlusion_count
      < (a₂.1.getD (tracks.getD i 0) default).max_occlusion_frames
  · simp only [if_pos hlt]
    exact ⟨map_modifyAt_congr _ _ markLostT_congr _ _ _ h1, True.intro⟩
  · simp only [if_neg hlt]
    exact ⟨map_modifyAt_congr _ _ markRemovedT_congr _ _ _ h1, True.intro⟩

theorem umFold_congr (minHits : ℕ) (tracks : List ℕ) :
    ∀ (idxs : List ℕ) (a₁ a₂ : List OCTrack × List ℕ),
      a₁.1.map OCTrack.sansP = a₂.1.map OCTrack.sansP → a₁.2 = a₂.2 →
      (idxs.foldl (ocUnmatchedStep minHits tracks) a₁).1.map OCTrack.sansP
        = (idxs.foldl (ocUnmatchedStep minHits tracks) a₂).1.map OCTrack.sansP
      ∧ (idxs.foldl (ocUnmatchedStep minHits tracks) a₁).2
        = (idxs.foldl (ocUnmatchedStep minHits tracks) a₂).2
  | [], _, _, h1, h2 => ⟨h1, h2⟩
  | i :: rest, a₁, a₂, h1, h2 => by
    have hs := umStep_congr minHits tracks i a₁ a₂ h1 h2
    simpa [List.foldl_cons] using umFold_congr minHits tracks rest _ _ hs.1 hs.2

theorem predictFold_congr :
    ∀ (refs : List ℕ) (h₁ h₂ : List OCTrack),
      h₁.map OCTrack.sansP = h₂.map OCTrack.sansP →
      (refs.foldl (fun h r => modifyAt r OCTrack.predictT h) h₁).map OCTrack.sansP
        = (refs.foldl (fun h r => modifyAt r OCTrack.predictT h) h₂).map OCTrack.sansP
  | [], _, _, e => e
  | r :: rest, h₁, h₂, e => by
    simpa [List.foldl_cons] using predictFold_congr rest _ _
      (map_modifyAt_congr _ _ predictT_congr r h₁ h₂ e)

theorem filter_state_congr (l : List ℕ) {h₁ h₂ : List OCTrack}
    (e : h₁.map OCTrack.sansP = h₂.map OCTrack.sansP) :
    (l.filter fun r => (h₁.getD r default).state ≠ TState.removed)
      = (l.filter fun r => (h₂.getD r default).state ≠ TState.removed) := by
  refine List.filter_congr fun r _ => ?_
  have hst : (h₁.getD r default).state = (h₂.getD r default).state :=
    (sansP_state _).symm.trans ((congrArg OCTrack.state (liteRel_getD e r)).trans (sansP_state _))
  rw [hst]

theorem filter_frame_congr (l : List ℕ) (fid maxAge : ℕ) {h₁ h₂ : List OCTrack}
    (e : h₁.map OCTrack.sansP = h₂.map OCTrack.sansP) :
    (l.filter fun r => fid - (h₁.getD r default).frame_id ≤ maxAge)
      = (l.filter fun r => fid - (h₂.getD r default).frame_id ≤ maxAge) := by
  refine List.filter_congr fun r _ => ?_
  have hfr : (h₁.getD r default).frame_id = (h₂.getD r default).frame_id :=
    (sansP_frame_id _).symm.trans
      ((congrArg OCTrack.frame_id (liteRel_getD e r)).trans (sansP_frame_id _))
  rw [hfr]

theorem lite_frame_id (s : OCState) : s.lite.frame_id = s.frame_id := rfl

theorem lite_tracks (s : OCState) : s.lite.tracks = s.tracks := rfl

theorem lite_dis (s : OCState) : s.lite.disappeared_tracks = s.disappeared_tracks := rfl

theorem lite_cnt (s : OCState) : s.lite.track_id_count = s.track_id_count := rfl

theorem lite_tot (s : OCState) : s.lite.total_tracks_created = s.total_tracks_created := rfl

theorem lite_rm (s : OCState) : s.lite.reid_matches = s.reid_matches := rfl

theorem lite_heap (s : OCState) : s.lite.heap = s.heap.map OCTrack.sansP := rfl

/-- The detection-free step depends only on the covariance-erased state. -/
theorem ocStepNil_lite (cfg : OCCfg) (s₁ s₂ : OCState) (e : s₁.lite = s₂.lite) :
    (ocStepNil cfg s₁).lite = (ocStepNil cfg s₂).lite := by
  have hfid : s₁.frame_id = s₂.frame_id :=
    (lite_frame_id s₁).symm.trans ((congrArg OCState.frame_id e).trans (lite_frame_id s₂))
  have htr : s₁.tracks = s₂.tracks :=
    (lite_tracks s₁).symm.trans ((congrArg OCState.tracks e).trans (lite_tracks s₂))
  have hdis : s₁.disappeared_tracks = s₂.disappeared_tracks :=
    (lite_dis s₁).symm.trans ((congrArg OCState.disappeared_tracks e).trans (lite_dis s₂))
  have hcnt : s₁.track_id_count = s₂.track_id_count :=
    (lite_cnt s₁).symm.trans ((congrArg OCState.track_id_count e).trans (lite_cnt s₂))
  have htot : s₁.total_tracks_created = s₂.total_tracks_created :=
    (lite_tot s₁).symm.trans ((congrArg OCState.total_tracks_created e).trans (lite_tot s₂))
  have hrm : s₁.reid_matches = s₂.reid_matches :=
    (lite_rm s₁).symm.trans ((congrArg OCState.reid_matches e).trans (lite_rm s₂))
  have hheap : s₁.heap.map OCTrack.sansP = s₂.heap.map OCTrack.sansP :=
    (lite_heap s₁).symm.trans ((congrArg OCState.heap e).trans (lite_heap s₂))
  simp only [ocStepNil, htr, hdis, hfid, hcnt, htot, hrm]
  have hp : (s₂.tracks.foldl (fun h r => modifyAt r OCTrack.predictT h) s₁.heap).map
        OCTrack.sansP
      = (s₂.tracks.foldl (fun h r => modifyAt r OCTrack.predictT h) s₂.heap).map
        OCTrack.sansP :=
    predictFold_congr s₂.tracks s₁.heap s₂.heap hheap
  have hum := umFold_congr cfg.min_hits s₂.tracks (List.range s₂.tracks.length)
    (s₂.tracks.foldl (fun h r => modifyAt r OCTrack.predictT h) s₁.heap,
     s₂.disappeared_tracks)
    (s₂.tracks.foldl (fun h r => modifyAt r OCTrack.predictT h) s₂.heap,
     s₂.disappeared_tracks) hp rfl
  simp only [OCState.lite, OCState.mk.injEq]
  exact ⟨True.intro, hum.1, filter_state_congr _ hum.1,
    hum.2 ▸ filter_frame_congr _ _ _ hum.1, True.intro, True.intro, True.intro⟩

/-- A run over detection-free frames depends only on the covariance-erased
start state (and not on the ghost accumulator). -/
theorem ocRunFrom_nil_lite (cfg : OCCfg) (bhat : Desc → Desc → Q) :
    ∀ (fs : List (List RawOCDet × Q)), (∀ f ∈ fs, f.1 = []) →
    ∀ (s₁ s₂ : OCState) (acc₁ acc₂ : List ℕ), s₁.lite = s₂.lite →
      ((ocRunFrom cfg bhat s₁ acc₁ fs).1).lite = ((ocRunFrom cfg bhat s₂ acc₂ fs).1).lite := by
  intro fs
  induction fs with
  | nil => intro _ s₁ s₂ _ _ e; simpa [ocRunFrom] using e
  | cons f rest ih =>
    intro hall s₁ s₂ acc₁ acc₂ e
    have hf : f.1 = [] := hall f (List.mem_cons_self f rest)
    simp only [ocRunFrom]
    refine ih (fun g hg => hall g (List.mem_cons_of_mem _ hg)) _ _ _ _ ?_
    rw [hf, ocUpdate_nil, ocUpdate_nil]
    exact ocStepNil_lite cfg s₁ s₂ e

theorem sansKF_tlwh (t : OCTrack) : (OCTrack.sansKF t).tlwh = t.tlwh := rfl

theorem sansKF_app (t : OCTrack) :
    (OCTrack.sansKF t).appearance_features = t.appearance_features := rfl

theorem sansKF_state (t : OCTrack) : (OCTrack.sansKF t).state = t.state := rfl

theorem sansKF_frame_id (t : OCTrack) : (OCTrack.sansKF t).frame_id = t.frame_id := rfl

theorem sansKF_obsCount (t : OCTrack) :
    (OCTrack.sansKF t).observation_count = t.observation_count := rfl

theorem sansKF_track_id (t : OCTrack) : (OCTrack.sansKF t).track_id = t.track_id := rfl

/-- The candidate scan reads only Kalman-free fields. -/
theorem ocReidBest_congr (bhat : Desc → Desc → Q) (det : OCDet) (pool : List ℕ)
    {h₁ h₂ : List OCTrack} (e : h₁.map OCTrack.sansKF = h₂.map OCTrack.sansKF) :
    ocReidBest bhat h₁ det pool = ocReidBest bhat h₂ det pool := by
  unfold ocReidBest
  refine congrArg (fun f => List.foldl f none pool) ?_
  funext best r
  have hc := skelRel_getD e r
  have e1 : (h₁.getD r default).tlwh = (h₂.getD r default).tlwh :=
    (sansKF_tlwh _).symm.trans ((congrArg OCTrack.tlwh hc).trans (sansKF_tlwh _))
  have e2 : (h₁.getD r default).appearance_features
      = (h₂.getD r default).appearance_features :=
    (sansKF_app _).symm.trans
      ((congrArg OCTrack.appearance_features hc).trans (sansKF_app _))
  simp only [e1, e2]

/-- Reinstatement writes no Kalman-free field that reads the Kalman state. -/
theorem reinstate_sansKF (det : OCDet) (fid : ℕ) (now : Q) (t : OCTrack) :
    (OCTrack.pushApp det.descTlbr
      { OCTrack.updateT det fid now t.sansKF with
        state := TState.tracked
        occlusion_count := 0 }).sansKF
    = (OCTrack.pushApp det.descTlbr
      { OCTrack.updateT det fid now t with
        state := TState.tracked
        occlusion_count := 0 }).sansKF := by
  cases det.descTlbr with
  | none => rfl
  | some a => rfl

theorem reinstate_congr (det : OCDet) (fid : ℕ) (now : Q) :
    ∀ x y : OCTrack, x.sansKF = y.sansKF →
      (OCTrack.pushApp det.descTlbr
        { OCTrack.updateT det fid now x with
          state := TState.tracked
          occlusion_count := 0 }).sansKF
      = (OCTrack.pushApp det.descTlbr
        { OCTrack.updateT det fid now y with
          state := TState.tracked
          occlusion_count := 0 }).sansKF := by
  intro x y e
  rw [← reinstate_sansKF det fid now x, ← reinstate_sansKF det fid now y, e]

theorem reidStep_congr (bhat : Desc → Desc → Q) (fid : ℕ) (now : Q)
    (getDet : ℕ → OCDet) (i : ℕ) (a₁ a₂ : ReidAcc)
    (hh : a₁.heap.map OCTrack.sansKF = a₂.heap.map OCTrack.sansKF)
    (h2 : a₁.tracks = a₂.tracks) (h3 : a₁.disappeared = a₂.disappeared)
    (h4 : a₁.reid_matches = a₂.reid_matches) (h5 : a₁.remaining = a₂.remaining) :
    ((ocReidStep bhat fid now getDet a₁ i).heap.map OCTrack.sansKF
      = (ocReidStep bhat fid now getDet a₂ i).heap.map OCTrack.sansKF)
    ∧ (ocReidStep bhat fid now getDet a₁ i).tracks
      = (ocReidStep bhat fid now getDet a₂ i).tracks
    ∧ (ocReidStep bhat fid now getDet a₁ i).disappeared
      = (ocReidStep bhat fid now getDet a₂ i).disappeared
    ∧ (ocReidStep bhat fid now getDet a₁ i).reid_matches
      = (ocReidStep bhat fid now getDet a₂ i).reid_matches
    ∧ (ocReidStep bhat fid now getDet a₁ i).remaining
      = (ocReidStep bhat fid now getDet a₂ i).remaining := by
  simp only [ocReidStep]
  rw [ocReidBest_congr bhat (getDet i) a₁.disappeared hh, h3]
  cases hb : ocReidBest bhat a₂.heap (getDet i) a₂.disappeared with
  | none => exact ⟨hh, h2, rfl, h4, by rw [h5]⟩
  | some rsq =>
    exact ⟨map_modifyAt_congr _ _ (reinstate_congr (getDet i) fid now) _ _ _ hh,
      by rw [h2], rfl, by rw [h4], h5⟩

theorem reidFold_congr (bhat : Desc → Desc → Q) (fid : ℕ) (now : Q)
    (getDet : ℕ → OCDet) :
    ∀ (idxs : List ℕ) (a₁ a₂ : ReidAcc),
      a₁.heap.map OCTrack.sansKF = a₂.heap.map OCTrack.sansKF →
      a₁.tracks = a₂.tracks → a₁.disappeared = a₂.disappeared →
      a₁.reid_matches = a₂.reid_matches → a₁.remaining = a₂.remaining →
      ((idxs.foldl (ocReidStep bhat fid now getDet) a₁).heap.map OCTrack.sansKF
        = (idxs.foldl (ocReidStep bhat fid now getDet) a₂).heap.map OCTrack.sansKF)
      ∧ (idxs.foldl (ocReidStep bhat fid now getDet) a₁).tracks
        = (idxs.foldl (ocReidStep bhat fid now getDet) a₂).tracks
      ∧ (idxs.foldl (ocReidStep bhat fid now getDet) a₁).disappeared
        = (idxs.foldl (ocReidStep bhat fid now getDet) a₂).disappeared
      ∧ (idxs.foldl (ocReidStep bhat fid now getDet) a₁).reid_matches
        = (idxs.foldl (ocReidStep bhat fid now getDet) a₂).reid_matches
      ∧ (idxs.foldl (ocReidStep bhat fid now getDet) a₁).remaining
        = (idxs.foldl (ocReidStep bhat fid now getDet) a₂).remaining
  | [], _, _, hh, h2, h3, h4, h5 => ⟨hh, h2, h3, h4, h5⟩
  | i :: rest, a₁, a₂, hh, h2, h3, h4, h5 => by
    have hs := reidStep_congr bhat fid now getDet i a₁ a₂ hh h2 h3 h4 h5
    simpa [List.foldl_cons] using reidFold_congr bhat fid now getDet rest _ _
      hs.1 hs.2.1 hs.2.2.1 hs.2.2.2.1 hs.2.2.2.2

theorem createStep_congr (thresh : Q) (fid : ℕ) (getDet : ℕ → OCDet) (i : ℕ)
    (a₁ a₂ : CreateAcc)
    (hh : a₁.heap.map OCTrack.sansKF = a₂.heap.map OCTrack.sansKF)
    (h2 : a₁.tracks = a₂.tracks) (h3 : a₁.cnt = a₂.cnt) (h4 : a₁.ids = a₂.ids) :
    ((ocCreateStep thresh fid getDet a₁ i).heap.map OCTrack.sansKF
      = (ocCreateStep thresh fid getDet a₂ i).heap.map OCTrack.sansKF)
    ∧ (ocCreateStep thresh fid getDet a₁ i).tracks
      = (ocCreateStep thresh fid getDet a₂ i).tracks
    ∧ (ocCreateStep thresh fid getDet a₁ i).cnt
      = (ocCreateStep thresh fid getDet a₂ i).cnt
    ∧ (ocCreateStep thresh fid getDet a₁ i).ids
      = (ocCreateStep thresh fid getDet a₂ i).ids := by
  have hlen : a₁.heap.length = a₂.heap.length := by
    have := congrArg List.length hh
    simpa using this
  unfold ocCreateStep
  by_cases hsc : (getDet i).score ≥ thresh
  · simp only [if_pos hsc, h2, h3, h4, hlen, List.map_append]
    exact ⟨by rw [hh], by trivial, by trivial, by trivial⟩
  · simp only [if_neg hsc]
    exact ⟨hh, h2, h3, h4⟩

theorem createFold_congr (thresh : Q) (fid : ℕ) (getDet : ℕ → OCDet) :
    ∀ (idxs : List ℕ) (a₁ a₂ : CreateAcc),
      a₁.heap.map OCTrack.sansKF = a₂.heap.map OCTrack.sansKF →
      a₁.tracks = a₂.tracks → a₁.cnt = a₂.cnt → a₁.ids = a₂.ids →
      ((idxs.foldl (ocCreateStep thresh fid getDet) a₁).heap.map OCTrack.sansKF
        = (idxs.foldl (ocCreateStep thresh fid getDet) a₂).heap.map OCTrack.sansKF)
      ∧ (idxs.foldl (ocCreateStep thresh fid getDet) a₁).tracks
        = (idxs.foldl (ocCreateStep thresh fid getDet) a₂).tracks
      ∧ (idxs.foldl (ocCreateStep thresh fid getDet) a₁).cnt
        = (idxs.foldl (ocCreateStep thresh fid getDet) a₂).cnt
      ∧ (idxs.foldl (ocCreateStep thresh fid getDet) a₁).ids
        = (idxs.foldl (ocCreateStep thresh fid getDet) a₂).ids
  | [], _, _, hh, h2, h3, h4 => ⟨hh, h2, h3, h4⟩
  | i :: rest, a₁, a₂, hh, h2, h3, h4 => by
    have hs := createStep_congr thresh fid getDet i a₁ a₂ hh h2 h3 h4
    simpa [List.foldl_cons] using createFold_congr thresh fid getDet rest _ _
      hs.1 hs.2.1 hs.2.2.1 hs.2.2.2

theorem filter_state_congr_skel (l : List ℕ) {h₁ h₂ : List OCTrack}
    (e : h₁.map OCTrack.sansKF = h₂.map OCTrack.sansKF) :
    (l.filter fun r => (h₁.getD r default).state ≠ TState.removed)
      = (l.filter fun r => (h₂.getD r default).state ≠ TState.removed) := by
  refine List.filter_congr fun r _ => ?_
  have hst : (h₁.getD r default).state = (h₂.getD r default).state :=
    (sansKF_state _).symm.trans
      ((congrArg OCTrack.state (skelRel_getD e r)).trans (sansKF_state _))
  rw [hst]

theorem filter_frame_congr_skel (l : List ℕ) (fid maxAge : ℕ) {h₁ h₂ : List OCTrack}
    (e : h₁.map OCTrack.sansKF = h₂.map OCTrack.sansKF) :
    (l.filter fun r => fid - (h₁.getD r default).frame_id ≤ maxAge)
      = (l.filter fun r => fid - (h₂.getD r default).frame_id ≤ maxAge) := by
  refine List.filter_congr fun r _ => ?_
  have hfr : (h₁.getD r default).frame_id = (h₂.getD r default).frame_id :=
    (sansKF_frame_id _).symm.trans
      ((congrArg OCTrack.frame_id (skelRel_getD e r)).trans (sansKF_frame_id _))
  rw [hfr]

theorem filter_output_congr_skel (l : List ℕ) (minHits : ℕ) {h₁ h₂ : List OCTrack}
    (e : h₁.map OCTrack.sansKF = h₂.map OCTrack.sansKF) :
    (l.filter fun r => (h₁.getD r default).state = TState.tracked
        ∧ (h₁.getD r default).observation_count ≥ minHits)
      = (l.filter fun r => (h₂.getD r default).state = TState.tracked
        ∧ (h₂.getD r default).observation_count ≥ minHits) := by
  refine List.filter_congr fun r _ => ?_
  have hst : (h₁.getD r default).state = (h₂.getD r default).state :=
    (sansKF_state _).symm.trans
      ((congrArg OCTrack.state (skelRel_getD e r)).trans (sansKF_state _))
  have hob : (h₁.getD r default).observation_count
      = (h₂.getD r default).observation_count :=
    (sansKF_obsCount _).symm.trans
      ((congrArg OCTrack.observation_count (skelRel_getD e r)).trans (sansKF_obsCount _))
  rw [hst, hob]

theorem skel_frame_id (s : OCState) : s.skel.frame_id = s.frame_id := rfl

theorem skel_tracks (s : OCState) : s.skel.tracks = s.tracks := rfl

theorem skel_dis (s : OCState) : s.skel.disappeared_tracks = s.disappeared_tracks := rfl

theorem skel_cnt (s : OCState) : s.skel.track_id_count = s.track_id_count := rfl

theorem skel_tot (s : OCState) : s.skel.total_tracks_created = s.total_tracks_created := rfl

theorem skel_rm (s : OCState) : s.skel.reid_matches = s.reid_matches := rfl

theorem skel_heap (s : OCState) : s.skel.heap = s.heap.map OCTrack.sansKF := rfl

/-- The creation-and-cleanup suffix of `OCSort.update`, from the
re-identification accumulator onward. -/
def ocFinish (thresh : Q) (fid : ℕ) (getDet : ℕ → OCDet) (cnt tot maxAge minHits : ℕ)
    (r : ReidAcc) : OCState × List ℕ × List ℕ :=
  let created := r.remaining.foldl (ocCreateStep thresh fid getDet)
    ⟨r.heap, r.tracks, cnt, []⟩
  let tracks' := created.tracks.filter fun x =>
    (created.heap.getD x default).state ≠ .removed
  let disappeared' := r.disappeared.filter fun x =>
    fid - (created.heap.getD x default).frame_id ≤ maxAge
  let output := tracks'.filter fun x =>
    (created.heap.getD x default).state = .tracked
      ∧ (created.heap.getD x default).observation_count ≥ minHits
  (⟨fid, created.heap, tracks', disappeared', created.cnt,
    tot + created.ids.length, r.reid_matches⟩, output, created.ids)

/-- `OCSort.update` on a frame entered with an empty active pool: every
detection goes straight to re-identification and then creation. -/
def ocStepNoTracks (cfg : OCCfg) (bhat : Desc → Desc → Q) (s : OCState)
    (dets : List RawOCDet) (now : Q) : OCState × List ℕ × List ℕ :=
  let fid := s.frame_id + 1
  let high := (ocConvert cfg.det_thresh dets).filter fun t => t.score ≥ cfg.det_thresh
  let getDet : ℕ → OCDet := fun i =>
    if i < high.length then high.getD i default
    else ([] : List OCDet).getD (i - high.length) default
  let reid := (List.range high.length).foldl (ocReidStep bhat fid now getDet)
    ⟨s.heap, [], s.disappeared_tracks, s.reid_matches, []⟩
  ocFinish cfg.det_thresh fid getDet s.track_id_count s.total_tracks_created
    cfg.max_age cfg.min_hits reid

theorem ocUpdate_noTracks (cfg : OCCfg) (bhat : Desc → Desc → Q) (s : OCState)
    (dets : List RawOCDet) (now : Q) (ht : s.tracks = []) :
    ocUpdate cfg bhat s dets now = ocStepNoTracks cfg bhat s dets now := by
  simp only [ocUpdate, ocStepNoTracks, ocFinish, ht, ocLowDets_convert,
    List.length_nil, hungarianAssociate_nT0, List.foldl_nil, List.isEmpty_nil,
    not_true, and_false, if_false]

theorem ocFinish_skel (thresh : Q) (fid : ℕ) (getDet : ℕ → OCDet)
    (cnt tot maxAge minHits : ℕ) (r₁ r₂ : ReidAcc)
    (hh : r₁.heap.map OCTrack.sansKF = r₂.heap.map OCTrack.sansKF)
    (h2 : r₁.tracks = r₂.tracks) (h3 : r₁.disappeared = r₂.disappeared)
    (h4 : r₁.reid_matches = r₂.reid_matches) (h5 : r₁.remaining = r₂.remaining) :
    ((ocFinish thresh fid getDet cnt tot maxAge minHits r₁).1).skel
      = ((ocFinish thresh fid getDet cnt tot maxAge minHits r₂).1).skel
    ∧ (ocFinish thresh fid getDet cnt tot maxAge minHits r₁).2
      = (ocFinish thresh fid getDet cnt tot maxAge minHits r₂).2 := by
  simp only [ocFinish, h5, h3, h4]
  obtain ⟨ch, ct, cc, ci⟩ := createFold_congr thresh fid getDet r₂.remaining
    ⟨r₁.heap, r₁.tracks, cnt, []⟩ ⟨r₂.heap, r₂.tracks, cnt, []⟩ hh h2 rfl rfl
  have htracks' : ((r₂.remaining.foldl (ocCreateStep thresh fid getDet)
        ⟨r₁.heap, r₁.tracks, cnt, []⟩).tracks.filter fun x =>
        ((r₂.remaining.foldl (ocCreateStep thresh fid getDet)
          ⟨r₁.heap, r₁.tracks, cnt, []⟩).heap.getD x default).state ≠ TState.removed)
      = ((r₂.remaining.foldl (ocCreateStep thresh fid getDet)
        ⟨r₂.heap, r₂.tracks, cnt, []⟩).tracks.filter fun x =>
        ((r₂.remaining.foldl (ocCreateStep thresh fid getDet)
          ⟨r₂.heap, r₂.tracks, cnt, []⟩).heap.getD x default).state ≠ TState.removed) := by
    rw [ct]
    exact filter_state_congr_skel _ ch
  constructor
  · simp only [OCState.skel, OCState.mk.injEq]
    refine ⟨by trivial, ch, htracks', ?_, by rw [cc], by rw [ci], by trivial⟩
    exact filter_frame_congr_skel _ _ _ ch
  · simp only [Prod.mk.injEq]
    refine ⟨?_, ci⟩
    rw [htracks']
    exact filter_output_congr_skel _ _ ch

theorem ocStepNoTracks_skel (cfg : OCCfg) (bhat : Desc → Desc → Q)
    (dets : List RawOCDet) (now : Q) (s₁ s₂ : OCState)
    (hh : s₁.heap.map OCTrack.sansKF = s₂.heap.map OCTrack.sansKF)
    (hdis : s₁.disappeared_tracks = s₂.disappeared_tracks)
    (hfid : s₁.frame_id = s₂.frame_id)
    (hcnt : s₁.track_id_count = s₂.track_id_count)
    (htot : s₁.total_tracks_created = s₂.total_tracks_created)
    (hrm : s₁.reid_matches = s₂.reid_matches) :
    ((ocStepNoTracks cfg bhat s₁ dets now).1).skel
      = ((ocStepNoTracks cfg bhat s₂ dets now).1).skel
    ∧ (ocStepNoTracks cfg bhat s₁ dets now).2
      = (ocStepNoTracks cfg bhat s₂ dets now).2 := by
  simp only [ocStepNoTracks, hdis, hfid, hcnt, htot, hrm]
  have hr := fun (gd : ℕ → OCDet) (idxs : List ℕ) =>
    reidFold_congr bhat (s₂.frame_id + 1) now gd idxs
      ⟨s₁.heap, [], s₂.disappeared_tracks, s₂.reid_matches, []⟩
      ⟨s₂.heap, [], s₂.disappeared_tracks, s₂.reid_matches, []⟩
      hh rfl rfl rfl rfl
  apply ocFinish_skel
  · exact (hr _ _).1
  · exact (hr _ _).2.1
  · exact (hr _ _).2.2.1
  · exact (hr _ _).2.2.2.1
  · exact (hr _ _).2.2.2.2

/-- `OCSort.update` entered with an empty active pool depends only on the
Kalman-erased state, up to Kalman erasure of the result state. -/
theorem ocUpdate_noTracks_skel (cfg : OCCfg) (bhat : Desc → Desc → Q)
    (dets : List RawOCDet) (now : Q) (s₁ s₂ : OCState)
    (ht : s₁.tracks = []) (e : s₁.skel = s₂.skel) :
    ((ocUpdate cfg bhat s₁ dets now).1).skel
      = ((ocUpdate cfg bhat s₂ dets now).1).skel
    ∧ (ocUpdate cfg bhat s₁ dets now).2 = (ocUpdate cfg bhat s₂ dets now).2 := by
  have htr : s₁.tracks = s₂.tracks :=
    (skel_tracks s₁).symm.trans ((congrArg OCState.tracks e).trans (skel_tracks s₂))
  have ht₂ : s₂.tracks = [] := htr.symm.trans ht
  rw [ocUpdate_noTracks cfg bhat s₁ dets now ht, ocUpdate_noTracks cfg bhat s₂ dets now ht₂]
  exact ocStepNoTracks_skel cfg bhat dets now s₁ s₂
    ((skel_heap s₁).symm.trans ((congrArg OCState.heap e).trans (skel_heap s₂)))
    ((skel_dis s₁).symm.trans ((congrArg OCState.disappeared_tracks e).trans (skel_dis s₂)))
    ((skel_frame_id s₁).symm.trans ((congrArg OCState.frame_id e).trans (skel_frame_id s₂)))
    ((skel_cnt s₁).symm.trans ((congrArg OCState.track_id_count e).trans (skel_cnt s₂)))
    ((skel_tot s₁).symm.trans ((congrArg OCState.total_tracks_created e).trans (skel_tot s₂)))
    ((skel_rm s₁).symm.trans ((congrArg OCState.reid_matches e).trans (skel_rm s₂)))

theorem ocRunFrom_append (cfg : OCCfg) (bhat : Desc → Desc → Q) :
    ∀ (l1 l2 : List (List RawOCDet × Q)) (s : OCState) (acc : List ℕ),
    ocRunFrom cfg bhat s acc (l1 ++ l2)
      = ocRunFrom cfg bhat (ocRunFrom cfg bhat s acc l1).1
          (ocRunFrom cfg bhat s acc l1).2 l2 := by
  intro l1
  induction l1 with
  | nil => intro l2 s acc; rfl
  | cons f fs ih =>
    intro l2 s acc
    show ocRunFrom cfg bhat _ _ (fs ++ l2) = _
    rw [ih]
    rfl

/-! ### A concrete re-identification run

Two tracks (`min_hits = 0`, otherwise the constructor defaults) are created in
frame 1 and miss 31 consecutive frames: the occlusion counter reaches the
budget 30 in frame 32, where both are removed and admitted to the disappeared
pool.  In frame 33 a detection at the second track's position re-identifies
it.  All detections carry a crop descriptor, and the Bhattacharyya oracle is
constantly `0` (identical histograms).  The run is machine-evaluated on
covariance-erased boundary literals (`liteT1` … `liteT32`), chained by the
congruence lemmas above. -/

/-- Constant-zero Bhattacharyya distance: every two crops look identical. -/
def bh0 : Desc → Desc → Q := fun _ _ => 0

def qn (n : ℕ) : Q := ⟨(n : ℤ), 1⟩

/-- A `tlbr`-form detection carrying a crop descriptor. -/
def mkde (x1 y1 x2 y2 sc : Q) : RawOCDet := ⟨⟨x1, y1, x2, y2⟩, sc, some 0, some 0⟩

/-- `OCSort(det_thresh=0.6, max_age=50, min_hits=0, iou_threshold=0.3)`. -/
def ocCfg0 : OCCfg := ⟨3/5, 50, 0, 3/10, false⟩

/-- Frame 1: two high-score detections with crops. -/
def reidF1 : List RawOCDet × Q := ([mkde 0 0 50 50 (9/10), mkde 400 0 450 50 (9/10)], qn 1)

/-- Frames 2–32: no detections. -/
def reidEmpties : List (List RawOCDet × Q) := (List.range 31).map fun i => ([], qn (i + 2))

/-- Frame 33: one detection at the second track's position. -/
def reidF33 : List RawOCDet × Q := ([mkde 400 0 450 50 (9/10)], qn 33)

/-- The first 32 frames. -/
def reidPre : List (List RawOCDet × Q) := reidF1 :: reidEmpties

/-- The full 33-frame sequence. -/
def reidFrames : List (List RawOCDet × Q) := reidPre ++ [reidF33]

def reidE1 : List (List RawOCDet × Q) := (List.range 8).map fun i => ([], qn (i + 2))

def reidE2 : List (List RawOCDet × Q) := (List.range 8).map fun i => ([], qn (i + 10))

def reidE3 : List (List RawOCDet × Q) := (List.range 8).map fun i => ([], qn (i + 18))

def reidE4 : List (List RawOCDet × Q) := (List.range 7).map fun i => ([], qn (i + 26))

theorem reidEmpties_chunks : reidEmpties = reidE1 ++ (reidE2 ++ (reidE3 ++ reidE4)) := by
  decide

theorem reidE1_empty : ∀ f ∈ reidE1, f.1 = [] := by decide

theorem reidE2_empty : ∀ f ∈ reidE2, f.1 = [] := by decide

theorem reidE3_empty : ∀ f ∈ reidE3, f.1 = [] := by decide

theorem reidE4_empty : ∀ f ∈ reidE4, f.1 = [] := by decide

/-- Machine-checked covariance-erased boundary state of the run. -/
def liteT1 : OCState := ⟨1, [⟨⟨⟨0, 1⟩, ⟨0, 1⟩, ⟨50, 1⟩, ⟨50, 1⟩⟩, ⟨9, 10⟩, some 1, true, .tracked, 1, 0, 1, ⟨[[⟨0, 1⟩], [⟨0, 1⟩], [⟨50, 1⟩], [⟨50, 1⟩], [⟨0, 1⟩], [⟨0, 1⟩], [⟨0, 1⟩], [⟨0, 1⟩]], []⟩, [], 0, 0, 0, 30, [0]⟩, ⟨⟨⟨400, 1⟩, ⟨0, 1⟩, ⟨50, 1⟩, ⟨50, 1⟩⟩, ⟨9, 10⟩, some 2, true, .tracked, 1, 0, 1, ⟨[[⟨400, 1⟩], [⟨0, 1⟩], [⟨50, 1⟩], [⟨50, 1⟩], [⟨0, 1⟩], [⟨0, 1⟩], [⟨0, 1⟩], [⟨0, 1⟩]], []⟩, [], 0, 0, 0, 30, [0]⟩], [0, 1], [], 2, 2, 0⟩

/-- Machine-checked covariance-erased boundary state of the run. -/
def liteT9 : OCState := ⟨9, [⟨⟨⟨0, 1⟩, ⟨0, 1⟩, ⟨50, 1⟩, ⟨50, 1⟩⟩, ⟨9, 10⟩, some 1, true, .lost, 1, 0, 1, ⟨[[⟨0, 1⟩], [⟨0, 1⟩], [⟨50, 1⟩], [⟨50, 1⟩], [⟨0, 1⟩], [⟨0, 1⟩], [⟨0, 1⟩], [⟨0, 1⟩]], []⟩, [], 0, 8, 7, 30, [0]⟩, ⟨⟨⟨400, 1⟩, ⟨0, 1⟩, ⟨50, 1⟩, ⟨50, 1⟩⟩, ⟨9, 10⟩, some 2, true, .lost, 1, 0, 1, ⟨[[⟨400, 1⟩], [⟨0, 1⟩], [⟨50, 1⟩], [⟨50, 1⟩], [⟨0, 1⟩], [⟨0, 1⟩], [⟨0, 1⟩], [⟨0, 1⟩]], []⟩, [], 0, 8, 7, 30, [0]⟩], [0, 1], [], 2, 2, 0⟩

/-- Machine-checked covariance-erased boundary state of the run. -/
def liteT17 : OCState := ⟨17, [⟨⟨⟨0, 1⟩, ⟨0, 1⟩, ⟨50, 1⟩, ⟨50, 1⟩⟩, ⟨9, 10⟩, some 1, true, .lost, 1, 0, 1, ⟨[[⟨0, 1⟩], [⟨0, 1⟩], [⟨50, 1⟩], [⟨50, 1⟩], [⟨0, 1⟩], [⟨0, 1⟩], [⟨0, 1⟩], [⟨0, 1⟩]], []⟩, [], 0, 16, 15, 30, [0]⟩, ⟨⟨⟨400, 1⟩, ⟨0, 1⟩, ⟨50, 1⟩, ⟨50, 1⟩⟩, ⟨9, 10⟩, some 2, true, .lost, 1, 0, 1, ⟨[[⟨400, 1⟩], [⟨0, 1⟩], [⟨50, 1⟩], [⟨50, 1⟩], [⟨0, 1⟩], [⟨0, 1⟩], [⟨0, 1⟩], [⟨0, 1⟩]], []⟩, [], 0, 16, 15, 30, [0]⟩], [0, 1], [], 2, 2, 0⟩

/-- Machine-checked covariance-erased boundary state of the run. -/
def liteT25 : OCState := ⟨25, [⟨⟨⟨0, 1⟩, ⟨0, 1⟩, ⟨50, 1⟩, ⟨50, 1⟩⟩, ⟨9, 10⟩, some 1, true, .lost, 1, 0, 1, ⟨[[⟨0, 1⟩], [⟨0, 1⟩], [⟨50, 1⟩], [⟨50, 1⟩], [⟨0, 1⟩], [⟨0, 1⟩], [⟨0, 1⟩], [⟨0, 1⟩]], []⟩, [], 0, 24, 23, 30, [0]⟩, ⟨⟨⟨400, 1⟩, ⟨0, 1⟩, ⟨50, 1⟩, ⟨50, 1⟩⟩, ⟨9, 10⟩, some 2, true, .lost, 1, 0, 1, ⟨[[⟨400, 1⟩], [⟨0, 1⟩], [⟨50, 1⟩], [⟨50, 1⟩], [⟨0, 1⟩], [⟨0, 1⟩], [⟨0, 1⟩], [⟨0, 1⟩]], []⟩, [], 0, 24, 23, 30, [0]⟩], [0, 1], [], 2, 2, 0⟩

/-- Machine-checked covariance-erased boundary state of the run. -/
def liteT32 : OCState := ⟨32, [⟨⟨⟨0, 1⟩, ⟨0, 1⟩, ⟨50, 1⟩, ⟨50, 1⟩⟩, ⟨9, 10⟩, some 1, true, .removed, 1, 0, 1, ⟨[[⟨0, 1⟩], [⟨0, 1⟩], [⟨50, 1⟩], [⟨50, 1⟩], [⟨0, 1⟩], [⟨0, 1⟩], [⟨0, 1⟩], [⟨0, 1⟩]], []⟩, [], 0, 31, 30, 30, [0]⟩, ⟨⟨⟨400, 1⟩, ⟨0, 1⟩, ⟨50, 1⟩, ⟨50, 1⟩⟩, ⟨9, 10⟩, some 2, true, .removed, 1, 0, 1, ⟨[[⟨400, 1⟩], [⟨0, 1⟩], [⟨50, 1⟩], [⟨50, 1⟩], [⟨0, 1⟩], [⟨0, 1⟩], [⟨0, 1⟩], [⟨0, 1⟩]], []⟩, [], 0, 31, 30, 30, [0]⟩], [], [0, 1], 2, 2, 0⟩

set_option maxRecDepth 40000 in
set_option maxHeartbeats 4000000 in
theorem lite_step1 :
    ((ocRunFrom ocCfg0 bh0 ocInit [] [reidF1]).1).lite = liteT1 := by decide

set_option maxRecDepth 40000 in
set_option maxHeartbeats 4000000 in
theorem lite_chunk1 :
    ((ocRunFrom ocCfg0 bh0 liteT1 [] reidE1).1).lite = liteT9 := by decide

set_option maxRecDepth 40000 in
set_option maxHeartbeats 4000000 in
theorem lite_chunk2 :
    ((ocRunFrom ocCfg0 bh0 liteT9 [] reidE2).1).lite = liteT17 := by decide

set_option maxRecDepth 40000 in
set_option maxHeartbeats 4000000 in
theorem lite_chunk3 :
    ((ocRunFrom ocCfg0 bh0 liteT17 [] reidE3).1).lite = liteT25 := by decide

set_option maxRecDepth 40000 in
set_option maxHeartbeats 4000000 in
theorem lite_chunk4 :
    ((ocRunFrom ocCfg0 bh0 liteT25 [] reidE4).1).lite = liteT32 := by decide

theorem liteT1_fix : liteT1.lite = liteT1 := by decide

theorem liteT9_fix : liteT9.lite = liteT9 := by decide

theorem liteT17_fix : liteT17.lite = liteT17 := by decide

theorem liteT25_fix : liteT25.lite = liteT25 := by decide

/-- The covariance-erased state after the 32-frame prefix. -/
theorem reidPre_lite : ((ocRun ocCfg0 bh0 reidPre).1).lite = liteT32 := by
  have t1 : ∀ a : List ℕ,
      ((ocRunFrom ocCfg0 bh0 (ocRunFrom ocCfg0 bh0 ocInit [] [reidF1]).1 a reidE1).1).lite
        = liteT9 := fun a =>
    (ocRunFrom_nil_lite ocCfg0 bh0 reidE1 reidE1_empty _ liteT1 a []
      (lite_step1.trans liteT1_fix.symm)).trans lite_chunk1
  have t2 : ∀ a₁ a₂ : List ℕ,
      ((ocRunFrom ocCfg0 bh0
        (ocRunFrom ocCfg0 bh0 (ocRunFrom ocCfg0 bh0 ocInit [] [reidF1]).1 a₁ reidE1).1
        a₂ reidE2).1).lite = liteT17 := fun a₁ a₂ =>
    (ocRunFrom_nil_lite ocCfg0 bh0 reidE2 reidE2_empty _ liteT9 a₂ []
      ((t1 a₁).trans liteT9_fix.symm)).trans lite_chunk2
  have t3 : ∀ a₁ a₂ a₃ : List ℕ,
      ((ocRunFrom ocCfg0 bh0
        (ocRunFrom ocCfg0 bh0
          (ocRunFrom ocCfg0 bh0 (ocRunFrom ocCfg0 bh0 ocInit [] [reidF1]).1 a₁ reidE1).1
          a₂ reidE2).1
        a₃ reidE3).1).lite = liteT25 := fun a₁ a₂ a₃ =>
    (ocRunFrom_nil_lite ocCfg0 bh0 reidE3 reidE3_empty _ liteT17 a₃ []
      ((t2 a₁ a₂).trans liteT17_fix.symm)).trans lite_chunk3
  have t4 : ∀ a₁ a₂ a₃ a₄ : List ℕ,
      ((ocRunFrom ocCfg0 bh0
        (ocRunFrom ocCfg0 bh0
          (ocRunFrom ocCfg0 bh0
            (ocRunFrom ocCfg0 bh0 (ocRunFrom ocCfg0 bh0 ocInit [] [reidF1]).1 a₁ reidE1).1
            a₂ reidE2).1
          a₃ reidE3).1
        a₄ reidE4).1).lite = liteT32 := fun a₁ a₂ a₃ a₄ =>
    (ocRunFrom_nil_lite ocCfg0 bh0 reidE4 reidE4_empty _ liteT25 a₄ []
      ((t3 a₁ a₂ a₃).trans liteT25_fix.symm)).trans lite_chunk4
  show ((ocRunFrom ocCfg0 bh0 ocInit [] reidPre).1).lite = liteT32
  rw [show reidPre = [reidF1] ++ reidEmpties from rfl, ocRunFrom_append,
    reidEmpties_chunks, ocRunFrom_append, ocRunFrom_append, ocRunFrom_append]
  exact t4 _ _ _ _

theorem cellState_lite (s : OCState) (r : ℕ) : s.lite.cellState r = s.cellState r := by
  simp [OCState.cellState, OCState.lite, List.map_drop, List.head?_map,
    Option.map_map, Function.comp_def, sansP_state]

theorem cellState_skel (s : OCState) (r : ℕ) : s.skel.cellState r = s.cellState r := by
  simp [OCState.cellState, OCState.skel, List.map_drop, List.head?_map,
    Option.map_map, Function.comp_def, sansKF_state]

theorem reidPre_tracks_nil : ((ocRun ocCfg0 bh0 reidPre).1).tracks = [] :=
  (lite_tracks _).symm.trans ((congrArg OCState.tracks reidPre_lite).trans (by decide))

theorem reidPre_skel : ((ocRun ocCfg0 bh0 reidPre).1).skel = liteT32.skel :=
  (skel_of_lite _).symm.trans (congrArg OCState.skel reidPre_lite)

/-- Facts about the prefix: both cells were removed in frame 32 and sit in
the disappeared pool, the active pool is empty. -/
theorem reidPre_facts :
    ((ocRun ocCfg0 bh0 reidPre).1).cellState 0 = some TState.removed
    ∧ ((ocRun ocCfg0 bh0 reidPre).1).cellState 1 = some TState.removed
    ∧ ((ocRun ocCfg0 bh0 reidPre).1).disappeared_tracks = [0, 1] := by
  refine ⟨?_, ?_, ?_⟩
  · exact (cellState_lite _ 0).symm.trans
      ((congrArg (fun s => OCState.cellState s 0) reidPre_lite).trans (by decide))
  · exact (cellState_lite _ 1).symm.trans
      ((congrArg (fun s => OCState.cellState s 1) reidPre_lite).trans (by decide))
  · exact (lite_dis _).symm.trans
      ((congrArg OCState.disappeared_tracks reidPre_lite).trans (by decide))

/-- The full run is the prefix followed by the frame-33 update. -/
theorem reidRun_split :
    (ocRun ocCfg0 bh0 reidFrames).1
      = (ocUpdate ocCfg0 bh0 (ocRun ocCfg0 bh0 reidPre).1 reidF33.1 reidF33.2).1 := by
  show (ocRunFrom ocCfg0 bh0 ocInit [] (reidPre ++ [reidF33])).1 = _
  rw [ocRunFrom_append]
  simp only [ocRun, ocRunFrom]

/-- The final state agrees, Kalman-erased, with the frame-33 update of the
covariance-erased boundary literal. -/
theorem reidFinal_skel :
    ((ocRun ocCfg0 bh0 reidFrames).1).skel
      = ((ocUpdate ocCfg0 bh0 liteT32 reidF33.1 reidF33.2).1).skel := by
  rw [reidRun_split]
  exact (ocUpdate_noTracks_skel ocCfg0 bh0 reidF33.1 reidF33.2 _ liteT32
    reidPre_tracks_nil reidPre_skel).1

set_option maxRecDepth 40000 in
set_option maxHeartbeats 4000000 in
theorem u33_facts :
    ((ocUpdate ocCfg0 bh0 liteT32 reidF33.1 reidF33.2).1).tracks = [1]
    ∧ ((ocUpdate ocCfg0 bh0 liteT32 reidF33.1 reidF33.2).1).disappeared_tracks = [1]
    ∧ ((ocUpdate ocCfg0 bh0 liteT32 reidF33.1 reidF33.2).1).cellState 0
      = some TState.removed
    ∧ ((ocUpdate ocCfg0 bh0 liteT32 reidF33.1 reidF33.2).1).cellState 1
      = some TState.tracked
    ∧ (((ocUpdate ocCfg0 bh0 liteT32 reidF33.1 reidF33.2).1).heap.getD 1
        default).track_id = some 2
    ∧ ((ocUpdate ocCfg0 bh0 liteT32 reidF33.1 reidF33.2).1).reid_matches = 1 := by
  decide

/-- Facts about the final state of the 33-frame run: the removed second track
is tracked again under its old identifier, the first pool entry was expelled
instead of the accepted candidate, and cell 0 stays removed. -/
theorem reidFinal_facts :
    ((ocRun ocCfg0 bh0 reidFrames).1).tracks = [1]
    ∧ ((ocRun ocCfg0 bh0 reidFrames).1).disappeared_tracks = [1]
    ∧ ((ocRun ocCfg0 bh0 reidFrames).1).cellState 0 = some TState.removed
    ∧ ((ocRun ocCfg0 bh0 reidFrames).1).cellState 1 = some TState.tracked
    ∧ (((ocRun ocCfg0 bh0 reidFrames).1).heap.getD 1 default).track_id = some 2
    ∧ ((ocRun ocCfg0 bh0 reidFrames).1).reid_matches = 1 := by
  have e := reidFinal_skel
  have hh : ((ocRun ocCfg0 bh0 reidFrames).1).heap.map OCTrack.sansKF
      = ((ocUpdate ocCfg0 bh0 liteT32 reidF33.1 reidF33.2).1).heap.map OCTrack.sansKF :=
    (skel_heap _).symm.trans ((congrArg OCState.heap e).trans (skel_heap _))
  refine ⟨?_, ?_, ?_, ?_, ?_, ?_⟩
  · exact ((skel_tracks _).symm.trans
      ((congrArg OCState.tracks e).trans (skel_tracks _))).trans u33_facts.1
  · exact ((skel_dis _).symm.trans
      ((congrArg OCState.disappeared_tracks e).trans (skel_dis _))).trans u33_facts.2.1
  · exact ((cellState_skel _ 0).symm.trans
      ((congrArg (fun s => OCState.cellState s 0) e).trans
        (cellState_skel _ 0))).trans u33_facts.2.2.1
  · exact ((cellState_skel _ 1).symm.trans
      ((congrArg (fun s => OCState.cellState s 1) e).trans
        (cellState_skel _ 1))).trans u33_facts.2.2.2.1
  · exact ((sansKF_track_id _).symm.trans
      ((congrArg OCTrack.track_id (skelRel_getD hh 1)).trans
        (sansKF_track_id _))).trans u33_facts.2.2.2.2.1
  · exact ((skel_rm _).symm.trans
      ((congrArg OCState.reid_matches e).trans (skel_rm _))).trans u33_facts.2.2.2.2.2

theorem ocCreateStep_ids (thresh : Q) (fid : ℕ) (getDet : ℕ → OCDet) :
    ∀ (idxs : List ℕ) (h : List OCTrack) (tr : List ℕ) (cnt : ℕ) (ids : List ℕ),
    ∃ k, (idxs.foldl (ocCreateStep thresh fid getDet) ⟨h, tr, cnt, ids⟩).ids
        = ids ++ List.range' (cnt + 1) k
      ∧ (idxs.foldl (ocCreateStep thresh fid getDet) ⟨h, tr, cnt, ids⟩).cnt = cnt + k := by
  intro idxs
  induction idxs with
  | nil => intro h tr cnt ids; exact ⟨0, by simp [List.range'], by simp⟩
  | cons i idxs ih =>
    intro h tr cnt ids
    rw [List.foldl_cons]
    by_cases hsc : (getDet i).score ≥ thresh
    · have hstep : ocCreateStep thresh fid getDet ⟨h, tr, cnt, ids⟩ i
          = ⟨h ++ [OCTrack.pushApp (getDet i).descTlbr
              (OCTrack.activateT fid (cnt + 1)
                (OCTrack.mk0 (getDet i).tlwh (getDet i).score none))],
             tr ++ [h.length], cnt + 1, ids ++ [cnt + 1]⟩ := by
        unfold ocCreateStep
        rw [if_pos hsc]
      rw [hstep]
      obtain ⟨k, h1, h2⟩ := ih _ _ (cnt + 1) (ids ++ [cnt + 1])
      refine ⟨k + 1, ?_, ?_⟩
      · rw [h1]
        simp [List.range']
      · rw [h2]; omega
    · have hstep : ocCreateStep thresh fid getDet ⟨h, tr, cnt, ids⟩ i
          = ⟨h, tr, cnt, ids⟩ := by
        unfold ocCreateStep
        rw [if_neg hsc]
      rw [hstep]
      exact ih h tr cnt ids

theorem ocUpdate_ids (cfg : OCCfg) (bhat : Desc → Desc → Q) (s : OCState)
    (dets : List RawOCDet) (now : Q) :
    ∃ k, (ocUpdate cfg bhat s dets now).2.2 = List.range' (s.track_id_count + 1) k
      ∧ (ocUpdate cfg bhat s dets now).1.track_id_count = s.track_id_count + k := by
  simp only [ocUpdate]
  obtain ⟨k, h1, h2⟩ := ocCreateStep_ids cfg.det_thresh (s.frame_id + 1) _ _
    _ _ s.track_id_count []
  exact ⟨k, by simpa using h1, by simpa using h2⟩

theorem ocRunFrom_chain (cfg : OCCfg) (bhat : Desc → Desc → Q) :
    ∀ (frames : List (List RawOCDet × Q)) (s : OCState) (acc : List ℕ),
    (∀ i ∈ acc, i ≤ s.track_id_count) → acc.Chain' (· < ·) →
    (ocRunFrom cfg bhat s acc frames).2.Chain' (· < ·)
      ∧ ∀ i ∈ (ocRunFrom cfg bhat s acc frames).2,
        i ≤ (ocRunFrom cfg bhat s acc frames).1.track_id_count := by
  intro frames
  induction frames with
  | nil => intro s acc hle hch; exact ⟨hch, hle⟩
  | cons f fs ih =>
    intro s acc hle hch
    obtain ⟨k, hids, hcnt⟩ := ocUpdate_ids cfg bhat s f.1 f.2
    show (ocRunFrom cfg bhat (ocUpdate cfg bhat s f.1 f.2).1
      (acc ++ (ocUpdate cfg bhat s f.1 f.2).2.2) fs).2.Chain' _ ∧ _
    apply ih
    · intro i hi
      rw [hids] at hi
      rcases List.mem_append.mp hi with hi | hi
      · have := hle i hi
        omega
      · have := List.mem_range'_1.mp hi
        omega
    · rw [hids, List.chain'_append]
      refine ⟨hch, chain'_range' _ _, ?_⟩
      intro x hx y hy
      have hxa : x ∈ acc := List.mem_of_mem_getLast? hx
      have hxle := hle x hxa
      cases k with
      | zero => simp [List.range'] at hy
      | succ k =>
        have : y = s.track_id_count + 1 := by
          simp [List.range'] at hy
          omega
        omega

/-- C3: in both trackers, `_next_id` increments `track_id_count` and assigns
the new value, so the ids created over any run are strictly increasing and
never repeat. -/
theorem C3_ids_strictly_increasing :
    (∀ (cfg : ByteCfg) (frames : List (List (Raw4 × Q))),
      (byteRun cfg frames).2.Chain' (· < ·) ∧ (byteRun cfg frames).2.Nodup)
    ∧ ∀ (cfg : OCCfg) (bhat : Desc → Desc → Q) (frames : List (List RawOCDet × Q)),
      (ocRun cfg bhat frames).2.Chain' (· < ·) ∧ (ocRun cfg bhat frames).2.Nodup := by
  constructor
  · intro cfg frames
    have h := byteRunFrom_chain cfg frames byteInit [] (by simp) (by simp)
    refine ⟨h.1, ?_⟩
    exact (List.chain'_iff_pairwise.mp h.1).imp Nat.ne_of_lt
  · intro cfg bhat frames
    have h := ocRunFrom_chain cfg bhat frames ocInit [] (by simp) (by simp)
    refine ⟨h.1, ?_⟩
    exact (List.chain'_iff_pairwise.mp h.1).imp Nat.ne_of_lt

/-- C4 (amended): lifecycle transitions follow
`new → tracked → lost → removed` with *two* regressions: `lost → tracked`
(reacquisition in `OCTrack.update`) and `removed → tracked` (the
re-identification loop of `OCSort.update` forces `state = 'tracked'` on the
accepted candidate regardless of its current state, and removed tracks enter
the disappeared pool in the same frame that removes them).  Each conjunct
characterises the state written by one primitive; the final two conjuncts
exhibit the `removed → tracked` regression on a concrete 33-frame run. -/
theorem C4_lifecycle_amended :
    (∀ t : OCTrack, t.predictT.state = t.state ∨ t.predictT.state = TState.lost)
    ∧ (∀ (det : OCDet) (fid : ℕ) (now : Q) (t : OCTrack),
        (OCTrack.updateT det fid now t).state
          = if t.state = TState.new ∨ t.state = TState.lost then TState.tracked
            else t.state)
    ∧ (∀ (fid tid : ℕ) (t : OCTrack), (OCTrack.activateT fid tid t).state = TState.tracked)
    ∧ (∀ t : OCTrack, t.markLostT.state = TState.lost)
    ∧ (∀ t : OCTrack, t.markRemovedT.state = TState.removed)
    ∧ (∀ (det : OCDet) (fid : ℕ) (now : Q) (t : OCTrack),
        (OCTrack.pushApp det.descTlbr
          { OCTrack.updateT det fid now t with
            state := TState.tracked
            occlusion_count := 0 }).state = TState.tracked)
    ∧ ((ocRun ocCfg0 bh0 reidPre).1).cellState 1 = some TState.removed
    ∧ ((ocRun ocCfg0 bh0 reidFrames).1).cellState 1 = some TState.tracked := by
  refine ⟨?_, ?_, ?_, ?_, ?_, ?_, reidPre_facts.2.1, reidFinal_facts.2.2.2.1⟩
  · intro t
    by_cases h : 1 < t.time_since_update + 1
    · exact Or.inr (by simp [OCTrack.predictT, h])
    · exact Or.inl (by simp [OCTrack.predictT, h])
  · intro det fid now t
    by_cases h1 : t.state = TState.new
    · simp [OCTrack.updateT, h1]
    · by_cases h2 : t.state = TState.lost <;> simp [OCTrack.updateT, h1, h2]
  · intro fid tid t; rfl
  · intro t; rfl
  · intro t; rfl
  · intro det fid now t
    cases det.descTlbr <;> rfl

/-- C4 (counterexample to "Removed is terminal"): in the 33-frame run
`reidFrames = reidPre ++ [reidF33]`, heap cell 1 (the second track, id 2) is
`removed` after the 32-frame prefix and `tracked` after frame 33: the
re-identification loop reinstated a track that had already entered the
removed state. -/
theorem C4_removed_not_terminal :
    reidFrames = reidPre ++ [reidF33]
    ∧ ((ocRun ocCfg0 bh0 reidPre).1).cellState 1 = some TState.removed
    ∧ ((ocRun ocCfg0 bh0 reidFrames).1).cellState 1 = some TState.tracked :=
  ⟨rfl, reidPre_facts.2.1, reidFinal_facts.2.2.2.1⟩

/-- Any candidate the re-identification scan returns comes from the pool,
passed the squared-distance gate `dist² < 200²`, carries exactly the
appearance similarity and squared centre distance of its heap cell, and its
combined score exceeds `0.6` (`gtPoint6` decides
`0.8·sim + 0.2·(1 − min(√dist²/200, 1)) > 0.6` exactly). -/
theorem ocReidBest_spec (bhat : Desc → Desc → Q) (heap : List OCTrack)
    (det : OCDet) :
    ∀ (pool : List ℕ) (b rsq : Option (ℕ × Q × Q)),
      pool.foldl
        (fun best r =>
          let dt := heap.getD r default
          let dSq := cDistSq det.tlwh.center dt.tlwh.center
          if dSq < 40000 then
            let sim := appSim bhat dt.appearance_features det.features
            if ((match best with
                | none => true
                | some b => scoreGt sim dSq b.2.1 b.2.2) && gtPoint6 sim dSq) then
              some (r, sim, dSq)
            else best
          else best) b = rsq →
      rsq = b ∨ ∃ p, rsq = some p ∧ p.1 ∈ pool
        ∧ p.2.2 = cDistSq det.tlwh.center ((heap.getD p.1 default).tlwh.center)
        ∧ p.2.1 = appSim bhat (heap.getD p.1 default).appearance_features det.features
        ∧ p.2.2 < 40000
        ∧ gtPoint6 p.2.1 p.2.2 = true := by
  intro pool
  induction pool with
  | nil => intro b rsq h; exact Or.inl h.symm
  | cons r rest ih =>
    intro b rsq h
    rw [List.foldl_cons] at h
    rcases ih _ rsq h with hb | ⟨p, hp, hmem, hrest⟩
    · simp only at hb
      split at hb
      · rename_i hg
        split at hb
        · rename_i hs
          exact Or.inr ⟨_, hb, List.mem_cons_self r rest, rfl, rfl, hg,
            (Bool.and_eq_true_iff.mp hs).2⟩
        · exact Or.inl hb
      · exact Or.inl hb
    · exact Or.inr ⟨p, hp, List.mem_cons_of_mem r hmem, hrest⟩

/-- C7 (amended): the re-identification loop of `OCSort.update`.  Any
accepted candidate comes from the disappeared pool, passes the spatial gate
and exceeds the `0.6` combined-score threshold; on acceptance the candidate
is updated in place (state forced `tracked`, occlusion counter reset,
appearance refreshed) and appended to the active pool, `reid_matches` is
bumped — but the *head* of the disappeared pool is deleted rather than the
candidate, because the field-less `@dataclass` equality used by
`list.remove(best_match)` makes every two `OCTrack`s equal; with no
acceptable candidate the detection is queued for new-track creation.  The
final conjuncts exhibit the consequence on the 33-frame run: after the
frame-33 re-identification the accepted candidate (cell 1) still sits in the
disappeared pool and the non-candidate head (cell 0) is gone. -/
theorem C7_reid_amended :
    (∀ (bhat : Desc → Desc → Q) (heap : List OCTrack) (det : OCDet)
       (pool : List ℕ) (p : ℕ × Q × Q), ocReidBest bhat heap det pool = some p →
        p.1 ∈ pool
        ∧ p.2.2 = cDistSq det.tlwh.center ((heap.getD p.1 default).tlwh.center)
        ∧ p.2.1 = appSim bhat (heap.getD p.1 default).appearance_features det.features
        ∧ p.2.2 < 40000
        ∧ gtPoint6 p.2.1 p.2.2 = true)
    ∧ (∀ (bhat : Desc → Desc → Q) (fid : ℕ) (now : Q) (getDet : ℕ → OCDet)
        (acc : ReidAcc) (i : ℕ) (p : ℕ × Q × Q),
        ocReidBest bhat acc.heap (getDet i) acc.disappeared = some p →
        ocReidStep bhat fid now getDet acc i
          = { acc with
              heap := modifyAt p.1
                (fun t => OCTrack.pushApp (getDet i).descTlbr
                  { OCTrack.updateT (getDet i) fid now t with
                    state := TState.tracked
                    occlusion_count := 0 }) acc.heap
              tracks := acc.tracks ++ [p.1]
              disappeared := acc.disappeared.drop 1
              reid_matches := acc.reid_matches + 1 })
    ∧ (∀ (bhat : Desc → Desc → Q) (fid : ℕ) (now : Q) (getDet : ℕ → OCDet)
        (acc : ReidAcc) (i : ℕ),
        ocReidBest bhat acc.heap (getDet i) acc.disappeared = none →
        ocReidStep bhat fid now getDet acc i
          = { acc with remaining := acc.remaining ++ [i] })
    ∧ ((ocRun ocCfg0 bh0 reidFrames).1).disappeared_tracks = [1]
    ∧ ((ocRun ocCfg0 bh0 reidFrames).1).tracks = [1]
    ∧ (((ocRun ocCfg0 bh0 reidFrames).1).heap.getD 1 default).track_id = some 2
    ∧ ((ocRun ocCfg0 bh0 reidFrames).1).reid_matches = 1 := by
  refine ⟨?_, ?_, ?_, reidFinal_facts.2.1, reidFinal_facts.1,
    reidFinal_facts.2.2.2.2.1, reidFinal_facts.2.2.2.2.2⟩
  · intro bhat heap det pool p h
    rcases ocReidBest_spec bhat heap det pool none (some p) h with hb | ⟨q, hq, hrest⟩
    · cases hb
    · cases hq
      exact hrest
  · intro bhat fid now getDet acc i p h
    simp only [ocReidStep, h]
  · intro bhat fid now getDet acc i h
    simp only [ocReidStep, h]

/-- C7 (counterexample to "removed from the disappeared pool"): after the
frame-33 re-identification of the 33-frame run, the accepted candidate (heap
cell 1, reinstated into the active pool) is still in the disappeared pool,
while the pool's head (cell 0, still removed) was deleted instead —
`disappeared_tracks.remove(best_match)` removes the first element because the
field-less `@dataclass` generates an `__eq__` under which all `OCTrack`s are
equal. -/
theorem C7_pool_head_removed :
    ((ocRun ocCfg0 bh0 reidFrames).1).tracks = [1]
    ∧ ((ocRun ocCfg0 bh0 reidFrames).1).disappeared_tracks = [1]
    ∧ ((ocRun ocCfg0 bh0 reidFrames).1).cellState 0 = some TState.removed
    ∧ ((ocRun ocCfg0 bh0 reidFrames).1).reid_matches = 1 :=
  ⟨reidFinal_facts.1, reidFinal_facts.2.1, reidFinal_facts.2.2.1,
    reidFinal_facts.2.2.2.2.2⟩

/-- Removed tracks never survive the end-of-frame cleanup into the active
pool, so the unmatched branch can re-remove only a track that was never
cleaned up in between. -/
theorem ocUpdate_tracks_not_removed (cfg : OCCfg) (bhat : Desc → Desc → Q)
    (s : OCState) (dets : List RawOCDet) (now : Q) :
    ∀ r ∈ (ocUpdate cfg bhat s dets now).1.tracks,
      (((ocUpdate cfg bhat s dets now).1).heap.getD r default).state
        ≠ TState.removed := by
  unfold ocUpdate
  intro r hr
  simpa using List.of_mem_filter hr

/-- The two-frame run for the occlusion-counter timing: one track created in
frame 1, unmatched in frame 2. -/
def occlFrames : List (List RawOCDet × Q) :=
  [([⟨⟨0, 0, 50, 50⟩, 9/10, none, none⟩], qn 1), ([], qn 2)]

/-- C5 (amended): the occlusion counter is incremented inside
`OCTrack.predict`, and only once `time_since_update` (bumped by the same
predict) exceeds 1 — that is, from a track's *second* consecutive unmatched
frame on, not on every unmatched frame.  The unmatched branch itself only
chooses between `mark_lost` (counter below `max_occlusion_frames`) and
`mark_removed` (counter at the budget), admitting the track to the
disappeared pool when its hit count reaches `min_hits`; removed tracks are
filtered out of the active pool at the end of the frame, so the removal
branch is not re-entered for the same track.  `ByteTracker`'s unmatched
branch likewise marks lost first and removed from the second stale frame on.
The final conjuncts show the boundary on a concrete run: a track unmatched
for the first time is `lost` with its counter still `0`. -/
theorem C5_occlusion_amended :
    (∀ t : OCTrack,
      t.predictT.time_since_update = t.time_since_update + 1
      ∧ t.predictT.occlusion_count
          = (if 1 < t.time_since_update + 1 then t.occlusion_count + 1
             else t.occlusion_count)
      ∧ t.predictT.state
          = (if 1 < t.time_since_update + 1 then TState.lost else t.state))
    ∧ (∀ (minHits : ℕ) (tracks : List ℕ) (h : List OCTrack) (d : List ℕ) (i : ℕ),
        ocUnmatchedStep minHits tracks (h, d) i
          = if (h.getD (tracks.getD i 0) default).occlusion_count
              < (h.getD (tracks.getD i 0) default).max_occlusion_frames then
              (modifyAt (tracks.getD i 0) OCTrack.markLostT h, d)
            else
              (modifyAt (tracks.getD i 0) OCTrack.markRemovedT h,
               if (h.getD (tracks.getD i 0) default).observation_count ≥ minHits
               then d ++ [tracks.getD i 0] else d))
    ∧ (∀ (cfg : OCCfg) (bhat : Desc → Desc → Q) (s : OCState)
        (dets : List RawOCDet) (now : Q), ∀ r ∈ (ocUpdate cfg bhat s dets now).1.tracks,
        (((ocUpdate cfg bhat s dets now).1).heap.getD r default).state ≠ TState.removed)
    ∧ (∀ t : STrack, t.markUnmatched.state
        = (if t.time_since_update ≤ 1 then TState.lost else TState.removed))
    ∧ ((ocRun ocDefault bh0 occlFrames).1).cellState 0 = some TState.lost
    ∧ (((ocRun ocDefault bh0 occlFrames).1).heap.getD 0 default).occlusion_count = 0 := by
  refine ⟨?_, ?_, ocUpdate_tracks_not_removed, ?_, by decide, by decide⟩
  · intro t
    refine ⟨?_, ?_, ?_⟩ <;> by_cases h : 1 < t.time_since_update + 1 <;>
      simp [OCTrack.predictT, h]
  · intro minHits tracks h d i
    rfl
  · intro t
    by_cases h : t.time_since_update ≤ 1 <;> simp [STrack.markUnmatched, h]

/-- C5 (counterexample to "for every track left unmatched by stage-1
association its occlusion counter is incremented"): in `occlFrames` the track
is left unmatched by stage 1 of frame 2 — it is marked `lost` — yet its
occlusion counter is still `0` after the frame, because the increment lives
in `OCTrack.predict` behind `time_since_update > 1` and this was only the
first unmatched frame. -/
theorem C5_first_miss_not_counted :
    ((ocRun ocDefault bh0 occlFrames).1).cellState 0 = some TState.lost
    ∧ (((ocRun ocDefault bh0 occlFrames).1).heap.getD 0 default).occlusion_count = 0
    ∧ (((ocRun ocDefault bh0 occlFrames).1).heap.getD 0 default).time_since_update
      = 1 := by
  decide

/-- `ByteTracker(track_thresh=0.5, track_buffer=30, match_thresh=0.8)`. -/
def byteCfg0 : ByteCfg := ⟨1/2, 30, 4/5, false⟩

/-- One frame with one high-score detection. -/
def byteF1 : List (Raw4 × Q) := [(⟨0, 0, 50, 50⟩, 9/10)]

/-- A service state with an inactive track of age 3. -/
def tsS1 : TSState :=
  ⟨[(1, ⟨⟨0, 0, 10, 10⟩, 9/10, 0, true, (1, 2, 3)⟩),
    (2, ⟨⟨100, 100, 110, 110⟩, 1/2, 3, false, (4, 5, 6)⟩)], 3⟩

/-- C6 (amended): only `OCSort` applies the claimed gate — its per-frame
return is exactly the active pool filtered by `state = tracked` and
`observation_count ≥ min_hits`.  `ByteTracker.update` returns the whole
post-cleanup tracked pool with no hit-count gate (a track created this frame
is returned with `tracklet_len = 0`), and `TrackingService.update` returns
every surviving entry of age at most 5, including unmatched ones reported
with `active = False`. -/
theorem C6_output_gate_amended :
    (∀ (cfg : OCCfg) (bhat : Desc → Desc → Q) (s : OCState)
       (dets : List RawOCDet) (now : Q),
      (ocUpdate cfg bhat s dets now).2.1
        = (ocUpdate cfg bhat s dets now).1.tracks.filter fun r =>
            (((ocUpdate cfg bhat s dets now).1).heap.getD r default).state
              = TState.tracked
            ∧ (((ocUpdate cfg bhat s dets now).1).heap.getD r default).observation_count
              ≥ cfg.min_hits)
    ∧ (∀ (cfg : ByteCfg) (s : ByteState) (dets : List (Raw4 × Q)),
        (byteUpdate cfg s dets).2.1 = (byteUpdate cfg s dets).1.tracked_stracks
        ∧ ∀ t ∈ (byteUpdate cfg s dets).2.1, t.state = TState.tracked)
    ∧ ((byteUpdate byteCfg0 byteInit byteF1).2.1.map
        (fun t => t.tracklet_len) = [0])
    ∧ tsEntry (2, ⟨⟨100, 100, 110, 110⟩, 1/2, 4, false, (4, 5, 6)⟩)
        ∈ (tsUpdate tsCfg0 tsColors0 tsS1 tsDets0).2
    ∧ (tsEntry (2, ⟨⟨100, 100, 110, 110⟩, 1/2, 4, false, (4, 5, 6)⟩)).active
        = false := by
  refine ⟨?_, ?_, by decide, by decide, by decide⟩
  · intro cfg bhat s dets now
    rfl
  · intro cfg s dets
    exact ⟨rfl, byteUpdate_output_state cfg s dets⟩

/-- C6 (counterexample to "the update returns exactly the tracks with state
Tracked and hit count at least the configured minimum"): `ByteTracker` has no
minimum-hits configuration and returns a track in the very frame it was
created, with `tracklet_len = 0`; `TrackingService` returns entries that were
not matched this frame (`active = False`) as long as their age is at most 5. -/
theorem C6_no_min_hits_gate :
    ((byteUpdate byteCfg0 byteInit byteF1).2.1.map
        (fun t => (t.tracklet_len, t.state)) = [(0, TState.tracked)])
    ∧ tsEntry (2, ⟨⟨100, 100, 110, 110⟩, 1/2, 4, false, (4, 5, 6)⟩)
        ∈ (tsUpdate tsCfg0 tsColors0 tsS1 tsDets0).2 := by
  decide

/-- C8: the low-confidence candidate lists of both trackers are dead code.
The stage-2 split filters the *converted* candidate list for
`score < threshold`, but the conversion loop it feeds on has already
discarded every detection below that same threshold, so with the toggle
enabled or not the extra candidate set is empty and stage 2 only ever sees
the stage-1 leftovers. -/
theorem C8_low_confidence_dead :
    (∀ (cfg : ByteCfg) (dets : List (Raw4 × Q)),
      byteLowDets cfg (byteConvert cfg.track_thresh dets) = [])
    ∧ ∀ (cfg : OCCfg) (dets : List RawOCDet),
      ocLowDets cfg (ocConvert cfg.det_thresh dets) = [] :=
  ⟨byteLowDets_nil, ocLowDets_convert⟩

/-- C9 (amended): no malformed-detection validation exists.  Both conversion
loops drop *only* low scores; a box whose third and fourth numbers do not
strictly exceed the first two — inverted or degenerate — is reinterpreted
verbatim as `tlwh` and kept.  `TrackingService` converts every detection
(no drop, no count), and an inverted `tlbr` box creates a track. -/
theorem C9_no_validation_amended :
    (∀ (thresh : Q) (dets : List (Raw4 × Q)),
      byteConvert thresh dets
        = (dets.filter fun rd => rd.2 ≥ thresh).map fun rd =>
          (if rd.1.a < rd.1.c ∧ rd.1.b < rd.1.d then
            ⟨rd.1.a, rd.1.b, rd.1.c - rd.1.a, rd.1.d - rd.1.b⟩
           else ⟨rd.1.a, rd.1.b, rd.1.c, rd.1.d⟩, rd.2))
    ∧ (∀ (thresh : Q) (dets : List RawOCDet),
      ocConvert thresh dets
        = (dets.filter fun rd => rd.score ≥ thresh).map fun rd =>
          ⟨if rd.box.a < rd.box.c ∧ rd.box.b < rd.box.d then
             ⟨rd.box.a, rd.box.b, rd.box.c - rd.box.a, rd.box.d - rd.box.b⟩
           else ⟨rd.box.a, rd.box.b, rd.box.c, rd.box.d⟩,
           rd.score, rd.descInit, rd.descTlbr⟩)
    ∧ (∀ dets : List TSDet, (tsDetBoxes dets).length = dets.length)
    ∧ (byteUpdate byteCfg0 byteInit [(⟨200, 200, 100, 100⟩, 9/10)]).2.2 = [1] := by
  refine ⟨byteConvert_eq_filter_map, ?_, ?_, by decide⟩
  · intro thresh dets
    induction dets with
    | nil => rfl
    | cons rd dets ih =>
      simp only [ocConvert, List.filterMap_cons] at ih ⊢
      by_cases h : rd.score ≥ thresh
      · rw [if_pos h, List.filter_cons, if_pos (decide_eq_true h), List.map_cons]
        rw [ih]
      · rw [if_neg h, List.filter_cons, if_neg (by simpa using h), ih]
  · intro dets
    simp [tsDetBoxes]

/-- C9 (counterexample to "every malformed detection is dropped before
association and a dropped count is reported"): an inverted box
`[200, 200, 100, 100]` and a negative-width box `[0, 0, -5, 10]` each create
a brand-new track (id 1) in both trackers instead of being dropped, and no
return value carries any dropped-detection count. -/
theorem C9_inverted_box_creates_track :
    (byteUpdate byteCfg0 byteInit [(⟨200, 200, 100, 100⟩, 9/10)]).2.2 = [1]
    ∧ (byteUpdate byteCfg0 byteInit [(⟨0, 0, -5, 10⟩, 9/10)]).2.2 = [1]
    ∧ (ocRun ocDefault bh0 [([⟨⟨200, 200, 100, 100⟩, 9/10, none, none⟩], qn 1)]).2
      = [1] := by
  decide

/-- A raw OCSort detection without crop descriptors. -/
def mkd0 (x1 y1 x2 y2 sc : Q) : RawOCDet := ⟨⟨x1, y1, x2, y2⟩, sc, none, none⟩

/-- One detection sequence: a box moving right 10 px/frame, matched in frames
1–3, missing in frame 4, and a fifth detection at `x = 58`. -/
def detsC2 : List (List RawOCDet) :=
  [[mkd0 0 0 50 50 (9/10)], [mkd0 10 0 60 50 (9/10)], [mkd0 20 0 70 50 (9/10)],
   [], [mkd0 58 0 108 50 (9/10)]]

/-- The same detections under wall-clock values 1, 2, 3, 4, 5. -/
def framesA : List (List RawOCDet × Q) := detsC2.zip [qn 1, qn 2, qn 3, qn 4, qn 5]

/-- The same detections under wall-clock values 1, 2, 102, 103, 104 (a 100 s
stall between the second and third frame). -/
def framesB : List (List RawOCDet × Q) := detsC2.zip [qn 1, qn 2, qn 102, qn 103, qn 104]

set_option maxRecDepth 40000 in
set_option maxHeartbeats 4000000 in
/-- C2 (code bug): two `OCSort` runs on the *identical* per-frame detection
sequence (same boxes, same scores, same order) assign different track ids and
different lifecycle trajectories when `time.time()` returns different values:
the observation-centric smoothing of `OCTrack._apply_oos` divides the
observed displacement by the wall-clock `dt`, so the smoothed velocity — and
with it the predicted box and the IoU association — depends on wall-clock
timing that is not part of the detection input.  Under times 1…5 the frame-5
detection is re-associated to track 1 (ids `[1]`); with a 100 s stall the
predicted box trails behind, association fails, track 1 is lost and a second
id is created (ids `[1, 2]`), so the id assignment and the state trajectory
of track 1 both diverge. -/
theorem C2_wallclock_divergence :
    framesA.map Prod.fst = framesB.map Prod.fst
    ∧ (ocRun ocDefault bh0 framesA).2 = [1]
    ∧ (ocRun ocDefault bh0 framesB).2 = [1, 2] := by
  decide


end Minimart
